import Mathlib

/-!
Verification of the word-discovery core of the grabble-solver repository
(`grabble_logic.py`), shallowly embedded in Lean 4.

Conventions of the embedding:
* a Python `str` used as a game word is modelled as `List Char`;
* a Python `collections.Counter` built from a list of letters is modelled by
  the list itself, queried through `List.count` and decremented with
  `List.erase` (both agree with `Counter` semantics: `get` with default `0`,
  decrement, and re-increment on backtrack);
* Python dictionaries whose insertion order is observable are modelled as
  association lists in insertion order; `dict` update keeps the position of an
  existing key and appends a fresh key at the end, which is exactly what
  `replaceChild` / `appendToKey` below do;
* a Python generator is modelled by the list of its yields, in yield order;
* exceptions are modelled with `Except`: an `Except.error` value corresponds
  to the Python call raising.
-/

namespace Grabble

/-- A node of the dictionary trie (`TrieNode` in `grabble_logic.py`):
an `is_word` flag, the stored word of a terminal node, and the child map
(a Python dict, kept here as an association list in insertion order). -/
inductive TrieNode where
  | mk (isWord : Bool) (word : Option (List Char)) (children : List (Char × TrieNode))

/-- The `is_word` flag of a node. -/
def TrieNode.isWord : TrieNode → Bool
  | .mk b _ _ => b

/-- The stored word of a node. -/
def TrieNode.word : TrieNode → Option (List Char)
  | .mk _ w _ => w

/-- The child map of a node. -/
def TrieNode.children : TrieNode → List (Char × TrieNode)
  | .mk _ _ ch => ch

/-- A fresh `TrieNode()`: no children, not a word. -/
def emptyNode : TrieNode := .mk false none []

/-- Lookup of `node.children[char]` in the child map. -/
def findChild : List (Char × TrieNode) → Char → Option TrieNode
  | [], _ => none
  | (c', n) :: rest, c => if c' = c then some n else findChild rest c

/-- Replacement of the value stored under an existing key of the child map;
the key keeps its position, as a Python dict update does. -/
def replaceChild : List (Char × TrieNode) → Char → TrieNode → List (Char × TrieNode)
  | [], _, _ => []
  | (c', n) :: rest, c, nn =>
    if c' = c then (c', nn) :: rest else (c', n) :: replaceChild rest c nn

/-- The walking part of `Trie.insert`: walk the remaining characters,
creating missing children (a fresh key is appended at the end of the dict),
and mark the final node terminal, storing the full word there. -/
def insertFrom (full : List Char) : List Char → TrieNode → TrieNode
  | [], .mk _ _ ch => .mk true (some full) ch
  | c :: cs, .mk isW w ch =>
    match findChild ch c with
    | some child => .mk isW w (replaceChild ch c (insertFrom full cs child))
    | none => .mk isW w (ch ++ [(c, insertFrom full cs emptyNode)])

/-- `Trie.insert(word)` on the root node. -/
def insertWord (t : TrieNode) (w : List Char) : TrieNode := insertFrom w w t

/-- A trie built by inserting the given words, in order, into an empty trie. -/
def buildTrie (ws : List (List Char)) : TrieNode := ws.foldl insertWord emptyNode

/-- `in_trie`: walk the trie by the characters of `w`; true iff the walk
succeeds and ends on a terminal node. -/
def inTrie : TrieNode → List Char → Bool
  | node, [] => node.isWord
  | node, c :: cs =>
    match findChild node.children c with
    | some child => inTrie child cs
    | none => false

mutual

/-- The recursive generator `_anagram` of `anagram`: at every node, first
yield the current path when the node is terminal, then walk every child whose
letter still has a positive remaining count, consuming one occurrence.
`counts` plays the role of the `Counter`; the functional style makes the
backtracking restore implicit. -/
def anagramFrom (node : TrieNode) (counts : List Char) (path : List Char) :
    List (List Char) :=
  match node with
  | .mk isW _ ch => (if isW then [path] else []) ++ anagramChildren ch counts path

/-- The `for letter, child in node.children.items()` loop of `_anagram`. -/
def anagramChildren (ch : List (Char × TrieNode)) (counts : List Char)
    (path : List Char) : List (List Char) :=
  match ch with
  | [] => []
  | (c, child) :: rest =>
    (if counts.count c = 0 then []
     else anagramFrom child (counts.erase c) (path ++ [c]))
      ++ anagramChildren rest counts path

end

/-- Errors raised by the game-logic queries: the uniform empty-trie
`ValueError`, and a `KeyError` escaping from a cache/dict lookup. -/
inductive Err where
  | emptyTrie
  | keyError
deriving DecidableEq

mutual

/-- All root-to-terminal paths of a node, in the traversal order of
`_anagram` (yield before descending, children in dict order). -/
def wordPaths (node : TrieNode) : List (List Char) :=
  match node with
  | .mk isW _ ch => (if isW then [[]] else []) ++ wordPathsChildren ch

/-- Paths through each child, prefixed by the child's letter. -/
def wordPathsChildren (ch : List (Char × TrieNode)) : List (List Char) :=
  match ch with
  | [] => []
  | (c, child) :: rest =>
    (wordPaths child).map (c :: ·) ++ wordPathsChildren rest

end

mutual

/-- Well-formedness of a trie node: the child map has no duplicate keys,
recursively.  Every trie built by `insertWord` from `emptyNode` is
well-formed, because a Python dict cannot hold duplicate keys. -/
def NodeWF (node : TrieNode) : Prop :=
  match node with
  | .mk _ _ ch => (ch.map (·.1)).Nodup ∧ ChildrenWF ch

/-- Well-formedness of each child. -/
def ChildrenWF (ch : List (Char × TrieNode)) : Prop :=
  match ch with
  | [] => True
  | (_, child) :: rest => NodeWF child ∧ ChildrenWF rest

end

/-- Decidable sub-multiset test used to characterise the anagram search:
every letter of `s` occurs in `m` at least as often as in `s`.  This is also
exactly the multiset-containment confirmation of `get_possible_words`
(`all(word_counter[letter] >= count for letter, count in existing_counter.items())`,
read with `s` the existing word and `m` the candidate). -/
def subCount (s m : List Char) : Bool := s.all (fun c => s.count c ≤ m.count c)

/-- A candidate word of the solver (`Word` in `grabble_logic.py`):
the word, the optional existing word it extends, and the pool letters it
consumes. -/
structure Word where
  word : List Char
  existing : Option (List Char)
  poolLetters : List Char
deriving DecidableEq

/-- The `Word.__init__` constructor: `pool_letters or list(word)` — both
`None` and an empty list fall back to the word's own letters, because an
empty Python list is falsy. -/
def mkWord (w : List Char) (existing : Option (List Char))
    (poolLetters : Option (List Char)) : Word :=
  { word := w
    existing := existing
    poolLetters :=
      match poolLetters with
      | none => w
      | some [] => w
      | some l => l }

/-- Python truthiness of the optional `existing_word` string: `None` and the
empty string are falsy. -/
def truthyOpt : Option (List Char) → Bool
  | none => false
  | some [] => false
  | some (_ :: _) => true

/-- The game state.  The pool holds single characters (the representation
maintained by the UI validation and the import path) and the trie is the
dictionary root.  The Python caches `word_bits`, `existing_word_counters`
and `existing_word_bits` are kept in lock-step with their sources by every
mutator, so the embedding models a cache hit by recomputing the cached pure
function of the key. -/
structure GameState where
  pool : List Char
  existingWords : List (List Char)
  trie : TrieNode

/-- Top-level `anagram(game_state, letters)`: raises on an empty trie,
otherwise yields every partial anagram of the letters. -/
def anagram (gs : GameState) (letters : List Char) : Except Err (List (List Char)) :=
  if gs.trie.children.isEmpty then .error .emptyTrie
  else .ok (anagramFrom gs.trie letters [])

/-- Whether a character is a lowercase letter `a`..`z`, the exact key set of
`letter_to_bit`. -/
def isAZ (c : Char) : Bool := 97 ≤ c.toNat && c.toNat ≤ 122

/-- The `letter_to_bit` dictionary: `chr(i + 97) -> 1 << i` for the 26
lowercase letters; looking up any other character raises `KeyError`. -/
def letterToBit (c : Char) : Option Nat :=
  if isAZ c then some (1 <<< (c.toNat - 97)) else none

/-- `calculate_word_bits`: OR together the letter bits of the word's
characters (`functools.reduce(lambda x, y: x | y, ..., 0)`); any character
outside `a`..`z` raises `KeyError`. -/
def calculateWordBits (w : List Char) : Option Nat :=
  w.foldlM (fun acc c => (letterToBit c).map (acc ||| ·)) 0

/-- A bits-cache/dict lookup viewed as an exception-producing computation. -/
def getBits (w : List Char) : Except Err Nat :=
  match calculateWordBits w with
  | some b => .ok b
  | none => .error .keyError

/-- One `letter_to_bit[l]` lookup viewed as an exception-producing
computation. -/
def getLetterBit (c : Char) : Except Err Nat :=
  match letterToBit c with
  | some b => .ok b
  | none => .error .keyError

/-- `word_bits & ~other_bits` on Python's unbounded non-negative ints:
keep exactly the bits of the first operand that the second lacks, i.e.
clear the shared bits (`testBit_diffBits` is the characteristic
property, matching `Nat.testBit_ldiff`). -/
def diffBits (wb other : Nat) : Nat := wb ^^^ (wb &&& other)

/-- Fuelled form of `countOnes` (fuel is a structural-recursion device
only: any fuel at least `n` gives the same result). -/
def countOnesF : Nat → Nat → Nat
  | 0, _ => 0
  | fuel + 1, n => if n = 0 then 0 else n % 2 + countOnesF fuel (n / 2)

/-- `bin(n).count('1')` for a non-negative int. -/
def countOnes (n : Nat) : Nat := countOnesF n n

/-- Fuelled base-2 logarithm (fuel is a structural-recursion device only:
any fuel at least `n` agrees with `Nat.log2 n`). -/
def log2F : Nat → Nat → Nat
  | 0, _ => 0
  | fuel + 1, n => if 2 ≤ n then log2F fuel (n / 2) + 1 else 0

/-- `int.bit_length()`. -/
def bitLength (n : Nat) : Nat := if n = 0 then 0 else log2F n n + 1

/-- `chr(diff_bits.bit_length() + 96)`: the letter recovered from the
position of the single set bit. -/
def missingLetterOfBits (diff : Nat) : Char := Char.ofNat (bitLength diff + 96)

/-- The list comprehension computing `new_letters` in `get_possible_words`:
the occurrences of the word's letters that are in the pool and occur in the
word strictly more often than in the existing word. -/
def newLettersPoss (gs : GameState) (w e : List Char) : List Char :=
  w.filter (fun l => decide (l ∈ gs.pool) && decide (e.count l < w.count l))

/-- The body of the existing-word loop of `get_possible_words` over the
anagram yields: look the word's bits up, require a strictly longer word
whose bit mask covers the existing word's, confirm by letter counts, and
keep it when at least one pool letter is newly used. -/
def extWordsFor (gs : GameState) (e : List Char) (ebits : Nat) :
    List (List Char) → Except Err (List Word)
  | [] => .ok []
  | w :: rest => do
    let wbits ← getBits w
    let tail ← extWordsFor gs e ebits rest
    if e.length < w.length ∧ wbits &&& ebits = ebits then
      if subCount e w then
        let nl := newLettersPoss gs w e
        if nl.isEmpty then .ok tail
        else .ok (mkWord w (some e) (some nl) :: tail)
      else .ok tail
    else .ok tail

/-- The `for existing_word in self.existing_words` loop of
`get_possible_words`: fetch the cached bits of the existing word and scan
the anagrams of pool plus existing word. -/
def possibleExtLoop (gs : GameState) : List (List Char) → Except Err (List Word)
  | [] => .ok []
  | e :: es => do
    let ebits ← getBits e
    let here ← extWordsFor gs e ebits (anagramFrom gs.trie (gs.pool ++ e) [])
    let rest ← possibleExtLoop gs es
    .ok (here ++ rest)

/-- Stable insertion of `x` into a list sorted by strictly descending key:
`x` goes before the first element whose key is not larger, so elements with
equal keys keep their original relative order. -/
def insertByDesc {α : Type} (key : α → Nat) (x : α) : List α → List α
  | [] => [x]
  | y :: ys => if key y ≤ key x then x :: y :: ys else y :: insertByDesc key x ys

/-- Stable sort by descending key; any stable descending sort produces
exactly the output of Python's `sorted(..., key=..., reverse=True)`. -/
def sortByDesc {α : Type} (key : α → Nat) (l : List α) : List α :=
  l.foldr (insertByDesc key) []

/-- `len(Word)` is the length of its word string. -/
def wordLen (wd : Word) : Nat := wd.word.length

/-- `get_possible_words`: words formable from the pool alone (their pool
letters are their own letters), plus extensions of each existing word, all
sorted by descending length. -/
def getPossibleWords (gs : GameState) : Except Err (List Word) :=
  if gs.trie.children.isEmpty then .error .emptyTrie
  else do
    let fromPool := (anagramFrom gs.trie gs.pool []).map (fun w => mkWord w none (some w))
    let ext ← possibleExtLoop gs gs.existingWords
    .ok (sortByDesc wordLen (fromPool ++ ext))

/-- The pool-reduction loop of `remove_word`: walk the pool in order and
drop each letter while the counter built from `pool_letters` still has a
positive count for it. -/
def removePoolLetters : List Char → List Char → List Char
  | [], _ => []
  | l :: rest, counts =>
    if 0 < counts.count l then removePoolLetters rest (counts.erase l)
    else l :: removePoolLetters rest counts

/-- `remove_word`: when the claimed word extends an existing word (`if
word.existing_word:` — Python truthiness), that existing word is removed
(with its cached counter and bits); the claimed word is appended, its caches
are installed, and the consumed pool letters are removed from the pool.
`list.remove` of a missing element would raise in Python; the embedding
erases the first occurrence, which agrees on every state where the word
being claimed was produced by `get_possible_words`. -/
def removeWord (gs : GameState) (wd : Word) : GameState :=
  let gs1 :=
    if truthyOpt wd.existing then
      { gs with existingWords := gs.existingWords.erase (wd.existing.getD []) }
    else gs
  { gs1 with
    existingWords := gs1.existingWords ++ [wd.word]
    pool := removePoolLetters gs1.pool wd.poolLetters }

/-- The total multiset of letters held by a game state: the pool plus the
letters of every existing word. -/
def totalLetters (gs : GameState) : Multiset Char :=
  (gs.pool : Multiset Char) + (gs.existingWords.map (fun e => (e : Multiset Char))).sum

/-- The module-level `SCRABBLE_LETTER_FREQUENCY` dict, in source order. -/
def SCRABBLE_LETTER_FREQUENCY : List (Char × Nat) :=
  [('e', 12), ('a', 9), ('i', 9), ('o', 8), ('n', 6), ('r', 6), ('t', 6),
   ('l', 4), ('s', 4), ('u', 4), ('d', 4), ('g', 3), ('b', 2), ('c', 2),
   ('m', 2), ('p', 2), ('f', 2), ('h', 2), ('v', 2), ('w', 2), ('y', 2),
   ('k', 1), ('j', 1), ('x', 1), ('q', 1), ('z', 1)]

/-- `sorted(SCRABBLE_LETTER_FREQUENCY.items(), key=lambda x: x[1],
reverse=True)` — a stable descending sort of the table by frequency. -/
def freqSorted : List (Char × Nat) := sortByDesc (·.2) SCRABBLE_LETTER_FREQUENCY

/-- The mapping built by `get_potential_words`, a dict in insertion order
from missing letter to candidate words. -/
abbrev PotMap := List (Char × List Word)

/-- `potential_words.setdefault(missing_letter, []).append(new_word)`:
append to the list of an existing key in place, or add a fresh key at the
end of the dict. -/
def appendToKey (m : PotMap) (k : Char) (wd : Word) : PotMap :=
  if m.any (fun p => p.1 = k) then
    m.map (fun p => if p.1 = k then (p.1, p.2 ++ [wd]) else p)
  else m ++ [(k, [wd])]

/-- The `new_letters` comprehension of `check_and_add_word` for a truthy
existing word: keep each letter occurrence that is not in the existing word,
or whose letter bit meets `word_bits & ~existing_bits`; the `or`
short-circuits, so `letter_to_bit` is only consulted for letters of the
existing word. -/
def newLettersPot (e : List Char) (wdiff : Nat) :
    List Char → Except Err (List Char)
  | [] => .ok []
  | l :: rest =>
    if l ∉ e then do
      let tail ← newLettersPot e wdiff rest
      .ok (l :: tail)
    else do
      let b ← getLetterBit l
      let tail ← newLettersPot e wdiff rest
      if b &&& wdiff ≠ 0 then .ok (l :: tail) else .ok tail

/-- `check_and_add_word(word, pool_bits, existing_word)`: look up the word
bits; for a truthy existing word require the bit mask to cover the existing
word's and differ from it; then record the word iff exactly one bit of
`word_bits & ~pool_bits` is set, under the letter recovered from that bit,
provided at least one new letter is used. -/
def checkAndAddWord (w : List Char) (availBits : Nat)
    (existing : Option (List Char)) (m : PotMap) : Except Err PotMap := do
  let wbits ← getBits w
  if truthyOpt existing then do
    let ebits ← getBits (existing.getD [])
    if wbits &&& ebits ≠ ebits then .ok m
    else if wbits = ebits then .ok m
    else if countOnes (diffBits wbits availBits) = 1 then do
      let nl ← newLettersPot (existing.getD []) (diffBits wbits ebits) w
      if nl.isEmpty then .ok m
      else .ok (appendToKey m (missingLetterOfBits (diffBits wbits availBits))
        (mkWord w existing (some nl)))
    else .ok m
  else
    if countOnes (diffBits wbits availBits) = 1 then
      -- `l not in (existing_word or '')` holds for every letter, so
      -- `new_letters = list(word)` without consulting `letter_to_bit`
      if w.isEmpty then .ok m
      else .ok (appendToKey m (missingLetterOfBits (diffBits wbits availBits))
        (mkWord w existing (some w)))
    else .ok m

/-- The pool branch of the candidate-letter loop: check every anagram of
pool plus the candidate letter against the original pool bits. -/
def potPoolWords (pb : Nat) : List (List Char) → PotMap → Except Err PotMap
  | [], m => .ok m
  | w :: rest, m => do
    let m1 ← checkAndAddWord w pb none m
    potPoolWords pb rest m1

/-- The inner word loop of the existing-word branch: only words strictly
longer than the existing word are checked. -/
def potExtWords (combinedBits : Nat) (e : List Char) :
    List (List Char) → PotMap → Except Err PotMap
  | [], m => .ok m
  | w :: rest, m =>
    (if e.length < w.length then checkAndAddWord w combinedBits (some e) m
     else .ok m) >>= potExtWords combinedBits e rest

/-- The `for existing_word in self.existing_words` loop of
`get_potential_words`: skipped when the candidate letter already occurs in
pool plus existing word. -/
def potExistingLoop (gs : GameState) (pb : Nat) (L : Char) :
    List (List Char) → PotMap → Except Err PotMap
  | [], m => .ok m
  | e :: es, m => do
    let combined := gs.pool ++ e
    if L ∈ combined then potExistingLoop gs pb L es m
    else do
      let ebits ← getBits e
      let m1 ← potExtWords (pb ||| ebits) e
        (anagramFrom gs.trie (combined ++ [L]) []) m
      potExistingLoop gs pb L es m1

/-- The candidate-letter loop of `get_potential_words`: letters already in
the pool are skipped entirely (and not counted); after the 11th processed
letter the loop breaks. -/
def potLetterLoop (gs : GameState) (pb : Nat) :
    List (Char × Nat) → Nat → PotMap → Except Err PotMap
  | [], _, m => .ok m
  | (L, _) :: rest, checked, m =>
    if L ∈ gs.pool then potLetterLoop gs pb rest checked m
    else do
      let m1 ← potPoolWords pb (anagramFrom gs.trie (gs.pool ++ [L]) []) m
      let m2 ← potExistingLoop gs pb L gs.existingWords m1
      if 11 ≤ checked + 1 then .ok m2
      else potLetterLoop gs pb rest (checked + 1) m2

/-- `get_potential_words`: raise on an empty trie, compute the pool bits
(`calculate_word_bits(''.join(pool))` — a `KeyError` for any non-letter in
the pool), run the candidate-letter loop, and finally sort every value list
by descending length. -/
def getPotentialWords (gs : GameState) : Except Err PotMap :=
  if gs.trie.children.isEmpty then .error .emptyTrie
  else do
    let pb ← getBits gs.pool
    let m ← potLetterLoop gs pb freqSorted 0 []
    .ok (m.map (fun p => (p.1, sortByDesc wordLen p.2)))

/-!
Serialization component.  Python strings are modelled here as lists of code
points (`List Nat`, values below `0x110000`, lone surrogates permitted, as
in CPython), because JSON escape parsing can produce lone surrogates that
`Char` cannot hold.  Bytes are `List Nat` with values below 256.
-/

/-- Python exception kinds observable from `GameState.deserialize`.
`invalidFormat` is the uniform `ValueError("Invalid input format. ...")`
raised by the `except (binascii.Error, json.JSONDecodeError, KeyError)`
handler; the remaining kinds escape the handler. -/
inductive PyErr where
  | invalidFormat
  | binasciiError
  | jsonDecodeError
  | keyError
  | unicodeEncodeError
  | unicodeDecodeError
  | typeError
  | attributeError
deriving DecidableEq

/-- The serialization-facing view of a game state: the letter pool (a list
of strings, normally single characters) and the existing words. -/
structure GameStateS where
  pool : List (List Nat)
  words : List (List Nat)
deriving DecidableEq

/-- Surrogate code points `0xD800`..`0xDFFF`. -/
def isSurrogate (n : Nat) : Bool := 55296 ≤ n && n ≤ 57343

/-- The UTF-8 byte sequence of one scalar value. -/
def utf8EncodeCp (n : Nat) : List Nat :=
  if n < 128 then [n]
  else if n < 2048 then [192 + n / 64, 128 + n % 64]
  else if n < 65536 then [224 + n / 4096, 128 + n / 64 % 64, 128 + n % 64]
  else [240 + n / 262144, 128 + n / 4096 % 64, 128 + n / 64 % 64, 128 + n % 64]

/-- `str.encode('utf-8')`: raises `UnicodeEncodeError` on lone surrogates
(and the model also rejects values beyond the Unicode range, which no
Python string can hold). -/
def utf8Encode : List Nat → Option (List Nat)
  | [] => some []
  | c :: rest =>
    if isSurrogate c || decide (1114112 ≤ c) then none
    else (utf8Encode rest).map (utf8EncodeCp c ++ ·)

/-- A UTF-8 continuation byte `0x80`..`0xBF`. -/
def isCont (b : Nat) : Bool := 128 ≤ b && b ≤ 191

/-- Valid second byte of a three-byte sequence (excludes overlong forms and
surrogates, as CPython's strict decoder does). -/
def validB2of3 (b b2 : Nat) : Bool :=
  if b = 224 then 160 ≤ b2 && b2 ≤ 191
  else if b = 237 then 128 ≤ b2 && b2 ≤ 159
  else isCont b2

/-- Valid second byte of a four-byte sequence. -/
def validB2of4 (b b2 : Nat) : Bool :=
  if b = 240 then 144 ≤ b2 && b2 ≤ 191
  else if b = 244 then 128 ≤ b2 && b2 ≤ 143
  else isCont b2

mutual

/-- `bytes.decode('utf-8')`: strict decoding; any malformed sequence raises
`UnicodeDecodeError`. -/
def utf8Decode : List Nat → Option (List Nat)
  | [] => some []
  | b :: rest =>
    if b < 128 then (utf8Decode rest).map (b :: ·)
    else if 194 ≤ b && b ≤ 223 then utf8DecTail2 b rest
    else if 224 ≤ b && b ≤ 239 then utf8DecTail3 b rest
    else if 240 ≤ b && b ≤ 244 then utf8DecTail4 b rest
    else none

/-- The continuation byte of a two-byte sequence with lead byte `b`. -/
def utf8DecTail2 (b : Nat) : List Nat → Option (List Nat)
  | b2 :: rest2 =>
    if isCont b2 then (utf8Decode rest2).map (((b - 192) * 64 + (b2 - 128)) :: ·)
    else none
  | [] => none

/-- The two continuation bytes of a three-byte sequence with lead byte
`b`. -/
def utf8DecTail3 (b : Nat) : List Nat → Option (List Nat)
  | b2 :: b3 :: rest3 =>
    if validB2of3 b b2 && isCont b3 then
      (utf8Decode rest3).map
        (((b - 224) * 4096 + (b2 - 128) * 64 + (b3 - 128)) :: ·)
    else none
  | _ => none

/-- The three continuation bytes of a four-byte sequence with lead byte
`b`. -/
def utf8DecTail4 (b : Nat) : List Nat → Option (List Nat)
  | b2 :: b3 :: b4 :: rest4 =>
    if validB2of4 b b2 && isCont b3 && isCont b4 then
      (utf8Decode rest4).map
        (((b - 240) * 262144 + (b2 - 128) * 4096 + (b3 - 128) * 64 + (b4 - 128)) :: ·)
    else none
  | _ => none

end

/-- The base64 alphabet character for a sextet. -/
def b64CharOf (i : Nat) : Nat :=
  if i < 26 then 65 + i
  else if i < 52 then 97 + (i - 26)
  else if i < 62 then 48 + (i - 52)
  else if i = 62 then 43
  else 47

/-- The sextet of a base64 alphabet byte, `none` for bytes outside the
alphabet (which `b64decode` discards in its default non-strict mode). -/
def b64ValueOf (b : Nat) : Option Nat :=
  if 65 ≤ b && b ≤ 90 then some (b - 65)
  else if 97 ≤ b && b ≤ 122 then some (b - 97 + 26)
  else if 48 ≤ b && b ≤ 57 then some (b - 48 + 52)
  else if b = 43 then some 62
  else if b = 47 then some 63
  else none

/-- `base64.b64encode` on bytes, with `=` padding. -/
def b64Encode : List Nat → List Nat
  | [] => []
  | [a] => [b64CharOf (a / 4), b64CharOf (a % 4 * 16), 61, 61]
  | [a, b] => [b64CharOf (a / 4), b64CharOf (a % 4 * 16 + b / 16),
               b64CharOf (b % 16 * 4), 61]
  | a :: b :: c :: rest =>
    b64CharOf (a / 4) :: b64CharOf (a % 4 * 16 + b / 16) ::
      b64CharOf (b % 16 * 4 + c / 64) :: b64CharOf (c % 64) :: b64Encode rest

/-- The three bytes of a full sextet quadruple. -/
def bytesOfQuad (g : List Nat) : List Nat :=
  match g with
  | [s1, s2, s3, s4] => [s1 * 4 + s2 / 16, s2 % 16 * 16 + s3 / 4, s3 % 4 * 64 + s4]
  | _ => []

/-- The bytes recovered from a padded partial group of two or three
sextets. -/
def bytesOfPartial (g : List Nat) : List Nat :=
  match g with
  | [s1, s2] => [s1 * 4 + s2 / 16]
  | [s1, s2, s3] => [s1 * 4 + s2 / 16, s2 % 16 * 16 + s3 / 4]
  | _ => []

/-- The scanning loop of `base64.b64decode` in its default non-strict mode:
bytes outside the alphabet are discarded; a `=` after at least two sextets
of the current group ends the data (the rest is ignored) while an earlier
`=` is discarded; at end of input a non-empty unpadded group is a padding
error (`binascii.Error`). -/
def b64DecodeLoop : List Nat → List Nat → List Nat → Option (List Nat)
  | [], group, out => if group.length = 0 then some out else none
  | b :: rest, group, out =>
    match b64ValueOf b with
    | some v =>
      if group.length = 3 then b64DecodeLoop rest [] (out ++ bytesOfQuad (group ++ [v]))
      else b64DecodeLoop rest (group ++ [v]) out
    | none =>
      if b = 61 then
        if 2 ≤ group.length then some (out ++ bytesOfPartial group)
        else b64DecodeLoop rest group out
      else b64DecodeLoop rest group out

/-- `base64.b64decode` with `validate=False` (the default). -/
def b64Decode (bytes : List Nat) : Option (List Nat) := b64DecodeLoop bytes [] []

/-- JSON values as produced by `json.loads`: objects keep their member
order (last duplicate key wins on lookup, as for a Python dict built by
repeated assignment).  Non-integer numbers are collapsed to `jnum` because
no code path of the program reads a float's value. -/
inductive JVal where
  | jnull
  | jbool (b : Bool)
  | jint (n : Int)
  | jnum
  | jstr (s : List Nat)
  | jarr (items : List JVal)
  | jobj (members : List (List Nat × JVal))

/-- JSON whitespace skipping (space, tab, newline, carriage return). -/
def skipWs (s : List Nat) : List Nat :=
  s.dropWhile (fun c => c = 32 || c = 9 || c = 10 || c = 13)

/-- Match a literal token and return the rest of the input. -/
def dropLit : List Nat → List Nat → Option (List Nat)
  | [], s => some s
  | _ :: _, [] => none
  | l :: ls, c :: rest => if c = l then dropLit ls rest else none

/-- Value of one hex digit. -/
def parseHexDigit (c : Nat) : Option Nat :=
  if 48 ≤ c && c ≤ 57 then some (c - 48)
  else if 97 ≤ c && c ≤ 102 then some (c - 87)
  else if 65 ≤ c && c ≤ 70 then some (c - 55)
  else none

/-- Value of the four hex digits of a `\uXXXX` escape. -/
def parseHexQuad (h1 h2 h3 h4 : Nat) : Option Nat := do
  let d1 ← parseHexDigit h1
  let d2 ← parseHexDigit h2
  let d3 ← parseHexDigit h3
  let d4 ← parseHexDigit h4
  some (d1 * 4096 + d2 * 256 + d3 * 16 + d4)

/-- Prepend a code point to the string component of a parse result. -/
def consFst (x : Nat) : Option (List Nat × List Nat) → Option (List Nat × List Nat)
  | none => none
  | some (s, r) => some (x :: s, r)

mutual

/-- The body of a JSON string after the opening quote: literal characters
(raw control characters are rejected, `strict=True`), the short escapes,
and `\uXXXX` escapes where a high-surrogate escape directly followed by a
low-surrogate escape combines into one code point and an unpaired surrogate
escape stays as a lone surrogate, as in CPython's scanner. -/
def parseStringBody : List Nat → Option (List Nat × List Nat)
  | [] => none
  | c :: rest =>
    if c = 34 then some ([], rest)
    else if c = 92 then parseEscape rest
    else if c < 32 then none
    else consFst c (parseStringBody rest)

/-- The character after a backslash: the short escapes of the `BACKSLASH`
table, or a `\uXXXX` escape; anything else is rejected. -/
def parseEscape : List Nat → Option (List Nat × List Nat)
  | [] => none
  | e :: rest2 =>
    if e = 34 then consFst 34 (parseStringBody rest2)
    else if e = 92 then consFst 92 (parseStringBody rest2)
    else if e = 47 then consFst 47 (parseStringBody rest2)
    else if e = 98 then consFst 8 (parseStringBody rest2)
    else if e = 102 then consFst 12 (parseStringBody rest2)
    else if e = 110 then consFst 10 (parseStringBody rest2)
    else if e = 114 then consFst 13 (parseStringBody rest2)
    else if e = 116 then consFst 9 (parseStringBody rest2)
    else if e = 117 then parseUnicodeEscape rest2
    else none

/-- The four hex digits after `\u`; a high-surrogate value looks ahead for
a directly following low-surrogate escape. -/
def parseUnicodeEscape : List Nat → Option (List Nat × List Nat)
  | h1 :: h2 :: h3 :: h4 :: rest3 =>
    match parseHexQuad h1 h2 h3 h4 with
    | none => none
    | some n =>
      if 55296 ≤ n ∧ n ≤ 56319 then parseAfterHighSur n rest3
      else consFst n (parseStringBody rest3)
  | _ => none

/-- Continuation after a high-surrogate `\uXXXX` escape of value `n`: when
another `\uXXXX` escape follows directly, its hex digits are decoded (bad
hex raises, as `_decode_uXXXX` does); a low surrogate pairs with `n` into
one supplementary code point, while any other value leaves `n` as a lone
surrogate and the scanner resumes at the second escape — whose value is
already known, so its own processing (including a fresh high-surrogate
lookahead) is continued directly here.  In the final case no second escape
follows; the one-step unfolding of `parseStringBody` keeps the mutual
recursion structural. -/
def parseAfterHighSur (n : Nat) : List Nat → Option (List Nat × List Nat)
  | 92 :: 117 :: h5 :: h6 :: h7 :: h8 :: rest5 =>
    match parseHexQuad h5 h6 h7 h8 with
    | none => none
    | some n2 =>
      if 56320 ≤ n2 ∧ n2 ≤ 57343 then
        consFst (65536 + (n - 55296) * 1024 + (n2 - 56320))
          (parseStringBody rest5)
      else
        consFst n
          (if 55296 ≤ n2 ∧ n2 ≤ 56319 then parseAfterHighSur n2 rest5
           else consFst n2 (parseStringBody rest5))
  | rest3 =>
    consFst n
      (match rest3 with
       | [] => none
       | c :: rest =>
         if c = 34 then some ([], rest)
         else if c = 92 then parseEscape rest
         else if c < 32 then none
         else consFst c (parseStringBody rest))

end

/-- Split off a leading run of decimal digits. -/
def spanDigits (s : List Nat) : List Nat × List Nat :=
  s.span (fun c => 48 ≤ c && c ≤ 57)

/-- Numeric value of a digit run. -/
def digitsToNat (ds : List Nat) : Nat :=
  ds.foldl (fun acc d => acc * 10 + (d - 48)) 0

/-- The integer part admitted by the JSON number grammar: `0`, or a
non-zero digit followed by digits (no leading zeros). -/
def parseIntPart : List Nat → Option (List Nat × List Nat)
  | [] => none
  | c :: r =>
    if c = 48 then some ([48], r)
    else if 49 ≤ c && c ≤ 57 then
      let (ds, r2) := spanDigits r
      some (c :: ds, r2)
    else none

/-- The optional fraction part `.digits`; an unmatched dot is simply left
unconsumed, as the Python `NUMBER_RE` regex does. -/
def parseFracPart (s : List Nat) : Bool × List Nat :=
  match s with
  | 46 :: r =>
    match spanDigits r with
    | ([], _) => (false, s)
    | (_ :: _, r2) => (true, r2)
  | _ => (false, s)

/-- The optional exponent part `[eE][+-]?digits`. -/
def parseExpPart (s : List Nat) : Bool × List Nat :=
  match s with
  | e :: r =>
    if e = 101 || e = 69 then
      let r1 := match r with
        | 43 :: r' => r'
        | 45 :: r' => r'
        | _ => r
      match spanDigits r1 with
      | ([], _) => (false, s)
      | (_ :: _, r2) => (true, r2)
    else (false, s)
  | [] => (false, s)

/-- A JSON number: an `int` when it has neither fraction nor exponent,
otherwise a float (`jnum`). -/
def parseNumber (s : List Nat) : Option (JVal × List Nat) :=
  let (neg, s1) := match s with
    | 45 :: r => (true, r)
    | _ => (false, s)
  match parseIntPart s1 with
  | none => none
  | some (ids, r2) =>
    let (hasFrac, r3) := parseFracPart r2
    let (hasExp, r4) := parseExpPart r3
    if hasFrac || hasExp then some (.jnum, r4)
    else
      let v : Int := Int.ofNat (digitsToNat ids)
      some (.jint (if neg then -v else v), r4)

mutual

/-- `scan_once` of the Python JSON scanner: dispatch on the first character
(no leading whitespace).  The fuel only bounds the recursion depth; every
recursive call consumes input, so fuel `length + 1` never runs out (see
`jsonLoads`). -/
def parseValue : Nat → List Nat → Option (JVal × List Nat)
  | 0, _ => none
  | fuel + 1, s =>
    match s with
    | [] => none
    | c :: rest =>
      if c = 34 then (parseStringBody rest).map (fun p => (JVal.jstr p.1, p.2))
      else if c = 123 then
        match skipWs rest with
        | 125 :: r => some (.jobj [], r)
        | t => parseMembers fuel t []
      else if c = 91 then
        match skipWs rest with
        | 93 :: r => some (.jarr [], r)
        | t => parseElements fuel t []
      else
        match dropLit [110, 117, 108, 108] s with
        | some r => some (.jnull, r)
        | none =>
        match dropLit [116, 114, 117, 101] s with
        | some r => some (.jbool true, r)
        | none =>
        match dropLit [102, 97, 108, 115, 101] s with
        | some r => some (.jbool false, r)
        | none =>
        match dropLit [78, 97, 78] s with
        | some r => some (.jnum, r)
        | none =>
        match dropLit [73, 110, 102, 105, 110, 105, 116, 121] s with
        | some r => some (.jnum, r)
        | none =>
        match dropLit [45, 73, 110, 102, 105, 110, 105, 116, 121] s with
        | some r => some (.jnum, r)
        | none => parseNumber s

/-- The member loop of a JSON object: a quoted key, a colon, a value, then
either a comma and the next member or the closing brace (no trailing
comma). -/
def parseMembers : Nat → List Nat → List (List Nat × JVal) →
    Option (JVal × List Nat)
  | 0, _, _ => none
  | fuel + 1, s, acc =>
    match s with
    | 34 :: rest =>
      match parseStringBody rest with
      | none => none
      | some (key, r1) =>
        match skipWs r1 with
        | 58 :: r2 =>
          match parseValue fuel (skipWs r2) with
          | none => none
          | some (v, r3) =>
            match skipWs r3 with
            | 44 :: r4 => parseMembers fuel (skipWs r4) (acc ++ [(key, v)])
            | 125 :: r4 => some (.jobj (acc ++ [(key, v)]), r4)
            | _ => none
        | _ => none
    | _ => none

/-- The element loop of a JSON array: a value, then either a comma and the
next element or the closing bracket (no trailing comma). -/
def parseElements : Nat → List Nat → List JVal → Option (JVal × List Nat)
  | 0, _, _ => none
  | fuel + 1, s, acc =>
    match parseValue fuel s with
    | none => none
    | some (v, r1) =>
      match skipWs r1 with
      | 44 :: r2 => parseElements fuel (skipWs r2) (acc ++ [v])
      | 93 :: r2 => some (.jarr (acc ++ [v]), r2)
      | _ => none

end

/-- `json.loads`: skip surrounding whitespace, scan one value, and require
the input to be exhausted. -/
def jsonLoads (s : List Nat) : Option JVal :=
  match parseValue (s.length + 1) (skipWs s) with
  | some (v, r) => if skipWs r = [] then some v else none
  | none => none

/-- One hex digit, lowercase, as `'%04x'` formatting produces. -/
def hexDigitCp (d : Nat) : Nat := if d < 10 then 48 + d else 87 + d

/-- The four lowercase hex digits of a value below `0x10000`. -/
def hex4 (n : Nat) : List Nat :=
  [hexDigitCp (n / 4096 % 16), hexDigitCp (n / 256 % 16),
   hexDigitCp (n / 16 % 16), hexDigitCp (n % 16)]

/-- `json.dumps` escaping of one character with the default
`ensure_ascii=True`: quote, backslash and the short control escapes, other
characters outside `0x20`..`0x7e` as `\uXXXX` (a surrogate pair for
code points beyond the BMP). -/
def jsonEscapeCp (c : Nat) : List Nat :=
  if c = 34 then [92, 34]
  else if c = 92 then [92, 92]
  else if c = 8 then [92, 98]
  else if c = 9 then [92, 116]
  else if c = 10 then [92, 110]
  else if c = 12 then [92, 102]
  else if c = 13 then [92, 114]
  else if c < 32 then 92 :: 117 :: hex4 c
  else if c < 127 then [c]
  else if c < 65536 then 92 :: 117 :: hex4 c
  else
    92 :: 117 :: hex4 (55296 + (c - 65536) / 1024)
      ++ (92 :: 117 :: hex4 (56320 + (c - 65536) % 1024))

/-- A dumped JSON string: quote, escaped characters, quote. -/
def jsonDumpStr (s : List Nat) : List Nat :=
  34 :: (s.map jsonEscapeCp).flatten ++ [34]

/-- A printable ASCII code point that `json.dumps` emits unescaped and the
scanner reads back literally: `0x20`..`0x7e` except the quote and the
backslash. -/
def plainCp (c : Nat) : Bool :=
  32 ≤ c && c ≤ 126 && c != 34 && c != 92

/-- `', '.join`-style separator interleaving used by the dumper for array
items. -/
def joinSep (sep : List Nat) : List (List Nat) → List Nat
  | [] => []
  | [x] => x
  | x :: y :: t => x ++ sep ++ joinSep sep (y :: t)

/-- `json.dumps({'letters': letters, 'words': words})` with the default
separators `', '` and `': '` and the insertion order of the dict literal. -/
def jsonDumpsGame (letters : List Nat) (words : List (List Nat)) : List Nat :=
  [123] ++ jsonDumpStr [108, 101, 116, 116, 101, 114, 115] ++ [58, 32]
    ++ jsonDumpStr letters ++ [44, 32]
    ++ jsonDumpStr [119, 111, 114, 100, 115] ++ [58, 32]
    ++ [91] ++ joinSep [44, 32] (words.map jsonDumpStr) ++ [93, 125]

/-- `GameState.serialize`: dump the pool (joined to one string) and the
words to JSON, UTF-8-encode, and base64-encode.  The dumped JSON is pure
ASCII (`ensure_ascii=True`), so its UTF-8 encoding never fails; the
`getD []` branch is unreachable. -/
def serialize (gs : GameStateS) : List Nat :=
  b64Encode ((utf8Encode (jsonDumpsGame gs.pool.flatten gs.words)).getD [])

/-- ASCII lower-casing of one code point, the effect of `str.lower()` on the
characters this program stores; the full Unicode case mapping of non-ASCII
characters is outside the scope of the model. -/
def pyLowerCp (c : Nat) : Nat := if 65 ≤ c && c ≤ 90 then c + 32 else c

/-- `str.lower()` of a stored string. -/
def pyLowerStr (s : List Nat) : List Nat := s.map pyLowerCp

/-- `add_letter`: append `letter.lower()` to the pool, whatever the letter
is — no alphabetic filtering happens anywhere on this path. -/
def addLetterS (gs : GameStateS) (letter : List Nat) : GameStateS :=
  { gs with pool := gs.pool ++ [pyLowerStr letter] }

/-- Whether every character of a word is a key of `letter_to_bit`;
`add_existing_word` calls `calculate_word_bits`, which raises `KeyError`
otherwise. -/
def wordBitsOkS (w : List Nat) : Bool := w.all (fun c => 97 ≤ c && c ≤ 122)

/-- The items yielded by `for letter in letters` over the decoded JSON
value, each subsequently passed to `letter.lower()`: a string yields its
characters, a list its elements (which must be strings, or `.lower()`
raises `AttributeError`), a dict its keys; other values are not iterable. -/
def iterLettersS : JVal → Except PyErr (List (List Nat))
  | .jstr s => .ok (s.map (fun c => [c]))
  | .jarr items => items.mapM (fun it =>
      match it with
      | .jstr t => .ok t
      | _ => .error .attributeError)
  | .jobj members => .ok (members.map (·.1))
  | _ => .error .typeError

/-- `add_letters(data['letters'])`. -/
def addLettersS (gs : GameStateS) (v : JVal) : Except PyErr GameStateS :=
  (iterLettersS v).map (fun items => items.foldl addLetterS gs)

/-- The items of `for word in words`: as for letters, but each item is then
passed to `Counter(word)` and `calculate_word_bits(word)`: non-iterable
items raise `TypeError`; container items (lists, dicts), which Python would
accept as exotic non-string "words", are outside this model of stored words
and are mapped to `TypeError` as well. -/
def iterWordsS : JVal → Except PyErr (List (List Nat))
  | .jstr s => .ok (s.map (fun c => [c]))
  | .jarr items => items.mapM (fun it =>
      match it with
      | .jstr t => .ok t
      | _ => .error .typeError)
  | .jobj members => .ok (members.map (·.1))
  | _ => .error .typeError

/-- `add_existing_words(data['words'])`: append each word and compute its
cached counter and bits; a character outside `a`..`z` raises `KeyError`
inside `calculate_word_bits`. -/
def addWordsS (gs : GameStateS) (v : JVal) : Except PyErr GameStateS := do
  let items ← iterWordsS v
  items.foldlM (fun g w =>
    if wordBitsOkS w then Except.ok { g with words := g.words ++ [w] }
    else .error PyErr.keyError) gs

/-- Last-wins lookup in a JSON object, the value a Python dict built from
the member list would hold. -/
def lookupLast (members : List (List Nat × JVal)) (key : List Nat) : Option JVal :=
  ((members.filter (fun p => p.1 = key)).getLast?).map (·.2)

/-- `data[key]`: a `KeyError` on a missing key of an object, a `TypeError`
when the decoded JSON value is not an object at all (subscripting a list
with a string, or a non-subscriptable value). -/
def jsonGet (v : JVal) (key : List Nat) : Except PyErr JVal :=
  match v with
  | .jobj members =>
    match lookupLast members key with
    | some x => .ok x
    | none => .error .keyError
  | _ => .error .typeError

/-- The code-point spelling of the `'letters'` key. -/
def LETTERS_KEY : List Nat := [108, 101, 116, 116, 101, 114, 115]

/-- The code-point spelling of the `'words'` key. -/
def WORDS_KEY : List Nat := [119, 111, 114, 100, 115]

/-- The body of `GameState.deserialize` before the `except` handler:
encode the input to bytes, base64-decode, UTF-8-decode, parse JSON, then
feed `data['letters']` to `add_letters` and `data['words']` to
`add_existing_words`.  The `Except` model returns the final state; the
partial mutation Python leaves behind when a later stage raises is not
observable through a caller that sees the exception. -/
def deserializeRaw (gs : GameStateS) (dataStr : List Nat) :
    Except PyErr GameStateS := do
  let bytes ← match utf8Encode dataStr with
    | some bs => Except.ok bs
    | none => Except.error PyErr.unicodeEncodeError
  let decBytes ← match b64Decode bytes with
    | some bs => Except.ok bs
    | none => Except.error PyErr.binasciiError
  let txt ← match utf8Decode decBytes with
    | some t => Except.ok t
    | none => Except.error PyErr.unicodeDecodeError
  let data ← match jsonLoads txt with
    | some v => Except.ok v
    | none => Except.error PyErr.jsonDecodeError
  let lettersVal ← jsonGet data LETTERS_KEY
  let gs1 ← addLettersS gs lettersVal
  let wordsVal ← jsonGet data WORDS_KEY
  let gs2 ← addWordsS gs1 wordsVal
  pure gs2

/-- `GameState.deserialize`: the `except (binascii.Error,
json.JSONDecodeError, KeyError)` handler collapses exactly those three
kinds into the uniform invalid-format `ValueError`; everything else
propagates unchanged. -/
def deserialize (gs : GameStateS) (dataStr : List Nat) :
    Except PyErr GameStateS :=
  match deserializeRaw gs dataStr with
  | .ok g => .ok g
  | .error .binasciiError => .error .invalidFormat
  | .error .jsonDecodeError => .error .invalidFormat
  | .error .keyError => .error .invalidFormat
  | .error e => .error e

section TrieLemmas

theorem anagramFrom_def (isW : Bool) (w : Option (List Char))
    (ch : List (Char × TrieNode)) (counts path : List Char) :
    anagramFrom (.mk isW w ch) counts path =
      (if isW then [path] else []) ++ anagramChildren ch counts path := rfl

theorem anagramChildren_nil (counts path : List Char) :
    anagramChildren [] counts path = [] := rfl

theorem anagramChildren_cons (c : Char) (child : TrieNode)
    (rest : List (Char × TrieNode)) (counts path : List Char) :
    anagramChildren ((c, child) :: rest) counts path =
      (if counts.count c = 0 then []
       else anagramFrom child (counts.erase c) (path ++ [c]))
        ++ anagramChildren rest counts path := rfl

theorem wordPaths_def (isW : Bool) (w : Option (List Char))
    (ch : List (Char × TrieNode)) :
    wordPaths (.mk isW w ch) = (if isW then [[]] else []) ++ wordPathsChildren ch := rfl

theorem wordPathsChildren_nil : wordPathsChildren [] = [] := rfl

theorem wordPathsChildren_cons (c : Char) (child : TrieNode)
    (rest : List (Char × TrieNode)) :
    wordPathsChildren ((c, child) :: rest) =
      (wordPaths child).map (c :: ·) ++ wordPathsChildren rest := rfl

theorem countOnesF_irrel : ∀ f1 f2 n : Nat, n ≤ f1 → n ≤ f2 →
    countOnesF f1 n = countOnesF f2 n := by
  intro f1
  induction f1 using Nat.strong_induction_on with
  | _ f1 ih =>
    intro f2 n h1 h2
    by_cases hn : n = 0
    · subst hn
      match f1, f2 with
      | 0, 0 => rfl
      | 0, _ + 1 => rw [countOnesF, countOnesF, if_pos rfl]
      | _ + 1, 0 => rw [countOnesF, countOnesF, if_pos rfl]
      | _ + 1, _ + 1 => rw [countOnesF, countOnesF, if_pos rfl, if_pos rfl]
    · match f1, f2 with
      | 0, _ => omega
      | _ + 1, 0 => omega
      | k1 + 1, k2 + 1 =>
        rw [countOnesF, countOnesF, if_neg hn, if_neg hn]
        congr 1
        exact ih k1 (by omega) k2 (n / 2) (by omega) (by omega)

theorem countOnes_eq (n : Nat) :
    countOnes n = if n = 0 then 0 else n % 2 + countOnes (n / 2) := by
  by_cases hn : n = 0
  · subst hn
    rfl
  · rw [if_neg hn, countOnes, countOnes]
    match n, hn with
    | m + 1, _ =>
      rw [countOnesF, if_neg (by omega)]
      congr 1
      exact countOnesF_irrel m ((m + 1) / 2) ((m + 1) / 2) (by omega) le_rfl

theorem NodeWF_def (isW : Bool) (w : Option (List Char))
    (ch : List (Char × TrieNode)) :
    NodeWF (.mk isW w ch) ↔ (ch.map (·.1)).Nodup ∧ ChildrenWF ch := by
  rw [NodeWF]

theorem ChildrenWF_nil : ChildrenWF [] := by
  rw [ChildrenWF]; trivial

theorem ChildrenWF_cons (c : Char) (child : TrieNode)
    (rest : List (Char × TrieNode)) :
    ChildrenWF ((c, child) :: rest) ↔ NodeWF child ∧ ChildrenWF rest := by
  rw [ChildrenWF]

/-- Structural induction over the nested trie type: to prove a property of
every node it suffices to prove it for a node assuming it for every child. -/
theorem TrieNode.inductionOn (P : TrieNode → Prop)
    (h : ∀ isW w ch, (∀ p ∈ ch, P p.2) → P (.mk isW w ch)) : ∀ n, P n := by
  intro n
  generalize hs : sizeOf n = s
  induction s using Nat.strong_induction_on generalizing n with
  | _ s ih =>
    match n with
    | .mk isW w ch =>
      apply h
      intro p hp
      apply ih (sizeOf p.2) _ p.2 rfl
      subst hs
      have h1 := List.sizeOf_lt_of_mem hp
      cases p with
      | mk c node => simp at h1 ⊢; omega

theorem subCount_iff (s m : List Char) :
    subCount s m = true ↔ ∀ c, s.count c ≤ m.count c := by
  constructor
  · intro h c
    by_cases hc : c ∈ s
    · exact of_decide_eq_true (List.all_eq_true.mp h c hc)
    · simp [List.count_eq_zero_of_not_mem hc]
  · intro h
    exact List.all_eq_true.mpr fun c _ => decide_eq_true (h c)

theorem subCount_head_pos (c : Char) (s m : List Char)
    (h : subCount (c :: s) m = true) : 0 < m.count c := by
  have := (subCount_iff _ _).mp h c
  simp [List.count_cons_self] at this
  omega

theorem subCount_cons (c : Char) (s m : List Char) (hm : 0 < m.count c) :
    subCount (c :: s) m = subCount s (m.erase c) := by
  rcases h1 : subCount s (m.erase c) with _ | _
  · rcases h2 : subCount (c :: s) m with _ | _
    · rfl
    · exfalso
      have h3 : subCount s (m.erase c) = true := by
        rw [subCount_iff] at h2 ⊢
        intro d
        by_cases hd : d = c
        · subst hd
          have := h2 d
          simp [List.count_cons_self] at this
          simp [List.count_erase_self]
          omega
        · have := h2 d
          rw [List.count_cons_of_ne hd] at this
          rw [List.count_erase_of_ne hd]
          exact this
      rw [h1] at h3
      exact Bool.false_ne_true h3
  · rw [subCount_iff] at h1 ⊢
    intro d
    by_cases hd : d = c
    · subst hd
      have := h1 d
      rw [List.count_erase_self] at this
      simp [List.count_cons_self]
      omega
    · have := h1 d
      rw [List.count_erase_of_ne hd] at this
      rw [List.count_cons_of_ne hd]
      exact this

theorem subCount_false_of_count_zero (c : Char) (s m : List Char)
    (hm : m.count c = 0) : subCount (c :: s) m = false := by
  rcases h : subCount (c :: s) m with _ | _
  · rfl
  · have := subCount_head_pos c s m h
    omega

theorem anagramChildren_eq_filter (ch : List (Char × TrieNode))
    (ih : ∀ p ∈ ch, ∀ counts path, anagramFrom p.2 counts path =
      ((wordPaths p.2).filter (fun s => subCount s counts)).map (path ++ ·)) :
    ∀ counts path, anagramChildren ch counts path =
      ((wordPathsChildren ch).filter (fun s => subCount s counts)).map (path ++ ·) := by
  induction ch with
  | nil => intro counts path; rw [anagramChildren_nil, wordPathsChildren_nil]; rfl
  | cons p rest ihrest =>
    intro counts path
    obtain ⟨c, child⟩ := p
    rw [anagramChildren_cons, wordPathsChildren_cons, List.filter_append,
      List.map_append]
    have hrest := ihrest (fun q hq => ih q (List.mem_cons_of_mem _ hq)) counts path
    rw [hrest]
    congr 1
    rw [List.filter_map]
    by_cases hc : counts.count c = 0
    · rw [if_pos hc]
      have hnil : (wordPaths child).filter ((fun s => subCount s counts) ∘ (c :: ·)) = [] := by
        apply List.filter_eq_nil_iff.mpr
        intro s _
        simp only [Function.comp_apply]
        rw [subCount_false_of_count_zero c s counts hc]
        simp
      rw [hnil]
      rfl
    · rw [if_neg hc]
      have hpos : 0 < counts.count c := Nat.pos_of_ne_zero hc
      have hfe : (wordPaths child).filter ((fun s => subCount s counts) ∘ (c :: ·)) =
          (wordPaths child).filter (fun s => subCount s (counts.erase c)) := by
        apply List.filter_congr
        intro s _
        simp only [Function.comp_apply]
        rw [subCount_cons c s counts hpos]
      rw [hfe, ih ⟨c, child⟩ (List.mem_cons_self _ _) (counts.erase c) (path ++ [c]),
        List.map_map]
      apply List.map_congr_left
      intro s _
      simp [List.append_assoc]

theorem anagramFrom_eq_filter (n : TrieNode) : ∀ counts path,
    anagramFrom n counts path =
      ((wordPaths n).filter (fun s => subCount s counts)).map (path ++ ·) := by
  induction n using TrieNode.inductionOn with
  | _ isW w ch ihch =>
    intro counts path
    rw [anagramFrom_def, wordPaths_def, List.filter_append, List.map_append]
    congr 1
    · cases isW
      · rfl
      · simp [subCount]
    · exact anagramChildren_eq_filter ch
        (fun p hp => ihch p hp) counts path

theorem mem_anagramFrom (n : TrieNode) (counts w : List Char) :
    w ∈ anagramFrom n counts [] ↔ w ∈ wordPaths n ∧ subCount w counts = true := by
  rw [anagramFrom_eq_filter]
  have hid : ∀ l : List (List Char), l.map (fun s => [] ++ s) = l := by
    intro l; simp
  rw [hid]
  simp [List.mem_filter]

theorem count_anagramFrom (n : TrieNode) (counts w : List Char) :
    (anagramFrom n counts []).count w =
      if subCount w counts then (wordPaths n).count w else 0 := by
  rw [anagramFrom_eq_filter]
  have hid : ∀ l : List (List Char), l.map (fun s => [] ++ s) = l := by
    intro l; simp
  rw [hid]
  by_cases hs : subCount w counts = true
  · rw [if_pos hs, List.count_filter]
    simp [hs]
  · rw [if_neg hs, List.count_eq_zero]
    intro hmem
    exact hs (List.mem_filter.mp hmem).2

theorem inTrie_emptyNode (w : List Char) : inTrie emptyNode w = false := by
  cases w <;> simp [inTrie, emptyNode, TrieNode.isWord, TrieNode.children, findChild]

theorem findChild_replaceChild_self (ch : List (Char × TrieNode)) (c : Char)
    (n nn : TrieNode) (h : findChild ch c = some n) :
    findChild (replaceChild ch c nn) c = some nn := by
  induction ch with
  | nil => simp [findChild] at h
  | cons p rest ih =>
    obtain ⟨c', m⟩ := p
    by_cases hc : c' = c
    · subst hc
      simp [replaceChild, findChild]
    · simp only [findChild, if_neg hc] at h
      simp [replaceChild, findChild, hc, ih h]

theorem findChild_replaceChild_ne (ch : List (Char × TrieNode)) (c d : Char)
    (nn : TrieNode) (hd : d ≠ c) :
    findChild (replaceChild ch c nn) d = findChild ch d := by
  induction ch with
  | nil => simp [replaceChild]
  | cons p rest ih =>
    obtain ⟨c', m⟩ := p
    by_cases hc : c' = c
    · have hcd : ¬ c' = d := fun h => hd (h.symm.trans hc)
      simp [replaceChild, if_pos hc, findChild, if_neg hcd]
    · by_cases hcd : c' = d
      · simp [replaceChild, if_neg hc, findChild, if_pos hcd]
      · simp [replaceChild, if_neg hc, findChild, if_neg hcd, ih]

theorem findChild_append (ch ch2 : List (Char × TrieNode)) (d : Char) :
    findChild (ch ++ ch2) d =
      match findChild ch d with
      | some n => some n
      | none => findChild ch2 d := by
  induction ch with
  | nil => simp [findChild]
  | cons p rest ih =>
    obtain ⟨c', m⟩ := p
    by_cases hc : c' = d
    · simp [findChild, hc]
    · simp [findChild, hc, ih]

theorem findChild_eq_none_iff (ch : List (Char × TrieNode)) (c : Char) :
    findChild ch c = none ↔ c ∉ ch.map (·.1) := by
  induction ch with
  | nil => simp [findChild]
  | cons p rest ih =>
    obtain ⟨c', m⟩ := p
    by_cases hc : c' = c
    · subst hc
      simp [findChild]
    · rw [findChild, if_neg hc, ih]
      simp only [List.map_cons, List.mem_cons]
      constructor
      · intro h hmem
        rcases hmem with h1 | h2
        · exact hc h1.symm
        · exact h h2
      · intro h hmem
        exact h (Or.inr hmem)

theorem inTrie_insertFrom (w : List Char) : ∀ (n : TrieNode) (full w' : List Char),
    inTrie (insertFrom full w n) w' = true ↔ w' = w ∨ inTrie n w' = true := by
  induction w with
  | nil =>
    intro n full w'
    obtain ⟨b, wd, ch⟩ := n
    cases w' with
    | nil => simp [insertFrom, inTrie, TrieNode.isWord]
    | cons d ds => simp [insertFrom, inTrie, TrieNode.children]
  | cons c cs ih =>
    intro n full w'
    obtain ⟨b, wd, ch⟩ := n
    rcases hf : findChild ch c with _ | child
    · -- the child for `c` is created fresh
      cases w' with
      | nil => simp [insertFrom, hf, inTrie, TrieNode.isWord]
      | cons d ds =>
        simp only [insertFrom, hf, inTrie, TrieNode.children, List.cons.injEq]
        rw [findChild_append]
        by_cases hdc : c = d
        · subst hdc
          rw [hf]
          simp [findChild, ih, inTrie_emptyNode]
        · have hdc2 : ¬ d = c := fun h => hdc h.symm
          rcases hfd : findChild ch d with _ | child'
          · simp [findChild, hdc, hdc2]
          · simp [hdc2, hfd]
    · -- the child for `c` already exists and is updated in place
      cases w' with
      | nil => simp [insertFrom, hf, inTrie, TrieNode.isWord]
      | cons d ds =>
        simp only [insertFrom, hf, inTrie, TrieNode.children, List.cons.injEq]
        by_cases hdc : d = c
        · subst hdc
          rw [findChild_replaceChild_self ch d child _ hf, hf]
          simp [ih]
        · rw [findChild_replaceChild_ne ch c d _ hdc]
          simp [hdc]

theorem keys_replaceChild (ch : List (Char × TrieNode)) (c : Char) (nn : TrieNode) :
    (replaceChild ch c nn).map (·.1) = ch.map (·.1) := by
  induction ch with
  | nil => simp [replaceChild]
  | cons p rest ih =>
    obtain ⟨c', m⟩ := p
    by_cases hc : c' = c <;> simp [replaceChild, hc, ih]

theorem ChildrenWF_append (l1 l2 : List (Char × TrieNode))
    (h1 : ChildrenWF l1) (h2 : ChildrenWF l2) : ChildrenWF (l1 ++ l2) := by
  induction l1 with
  | nil => simpa using h2
  | cons p rest ih =>
    obtain ⟨c, m⟩ := p
    rw [ChildrenWF_cons] at h1
    rw [List.cons_append, ChildrenWF_cons]
    exact ⟨h1.1, ih h1.2⟩

theorem findChild_WF (ch : List (Char × TrieNode)) (c : Char) (n : TrieNode)
    (hwf : ChildrenWF ch) (h : findChild ch c = some n) : NodeWF n := by
  induction ch with
  | nil => simp [findChild] at h
  | cons p rest ih =>
    obtain ⟨c', m⟩ := p
    rw [ChildrenWF_cons] at hwf
    by_cases hc : c' = c
    · simp only [findChild, if_pos hc] at h
      cases h
      exact hwf.1
    · simp only [findChild, if_neg hc] at h
      exact ih hwf.2 h

theorem replaceChild_WF (ch : List (Char × TrieNode)) (c : Char) (nn : TrieNode)
    (hwf : ChildrenWF ch) (hnn : NodeWF nn) : ChildrenWF (replaceChild ch c nn) := by
  induction ch with
  | nil => simpa [replaceChild] using hwf
  | cons p rest ih =>
    obtain ⟨c', m⟩ := p
    rw [ChildrenWF_cons] at hwf
    by_cases hc : c' = c
    · simp only [replaceChild, if_pos hc]
      rw [ChildrenWF_cons]
      exact ⟨hnn, hwf.2⟩
    · simp only [replaceChild, if_neg hc]
      rw [ChildrenWF_cons]
      exact ⟨hwf.1, ih hwf.2⟩

theorem NodeWF_emptyNode : NodeWF emptyNode := by
  rw [emptyNode, NodeWF_def]
  exact ⟨List.nodup_nil, ChildrenWF_nil⟩

theorem NodeWF_insertFrom (w : List Char) : ∀ (n : TrieNode) (full : List Char),
    NodeWF n → NodeWF (insertFrom full w n) := by
  induction w with
  | nil =>
    intro n full h
    obtain ⟨b, wd, ch⟩ := n
    rw [NodeWF_def] at h
    rw [insertFrom, NodeWF_def]
    exact h
  | cons c cs ih =>
    intro n full h
    obtain ⟨b, wd, ch⟩ := n
    rw [NodeWF_def] at h
    rcases hf : findChild ch c with _ | child
    · rw [insertFrom]
      simp only [hf]
      rw [NodeWF_def]
      constructor
      · rw [List.map_append]
        rw [List.nodup_append]
        refine ⟨h.1, List.nodup_singleton _, ?_⟩
        intro a ha hb
        simp at hb
        rw [hb] at ha
        exact (findChild_eq_none_iff ch c).mp hf ha
      · exact ChildrenWF_append _ _ h.2 (by
          rw [ChildrenWF_cons]
          exact ⟨ih emptyNode full NodeWF_emptyNode, ChildrenWF_nil⟩)
    · rw [insertFrom]
      simp only [hf]
      rw [NodeWF_def]
      constructor
      · rw [keys_replaceChild]
        exact h.1
      · exact replaceChild_WF ch c _ h.2 (ih child full (findChild_WF ch c child h.2 hf))

theorem mem_wordPathsChildren (ch : List (Char × TrieNode)) (x : List Char) :
    x ∈ wordPathsChildren ch ↔
      ∃ p ∈ ch, ∃ s ∈ wordPaths p.2, x = p.1 :: s := by
  induction ch with
  | nil => simp [wordPathsChildren_nil]
  | cons p rest ih =>
    obtain ⟨c, child⟩ := p
    rw [wordPathsChildren_cons]
    simp only [List.mem_append, List.mem_map, ih, List.mem_cons]
    constructor
    · intro h
      rcases h with ⟨s, hs, hx⟩ | ⟨q, hq, s, hs, hx⟩
      · exact ⟨(c, child), Or.inl rfl, s, hs, hx.symm⟩
      · exact ⟨q, Or.inr hq, s, hs, hx⟩
    · intro ⟨q, hq, s, hs, hx⟩
      rcases hq with hq | hq
      · subst hq
        exact Or.inl ⟨s, hs, hx.symm⟩
      · exact Or.inr ⟨q, hq, s, hs, hx⟩

theorem count_nil_wordPathsChildren (ch : List (Char × TrieNode)) :
    (wordPathsChildren ch).count ([] : List Char) = 0 := by
  rw [List.count_eq_zero]
  intro hmem
  rcases (mem_wordPathsChildren ch []).mp hmem with ⟨p, _, s, _, hx⟩
  exact List.noConfusion hx

theorem count_cons_wordPathsChildren_of_not_key (c : Char) (cs : List Char)
    (ch : List (Char × TrieNode)) (h : c ∉ ch.map (·.1)) :
    (wordPathsChildren ch).count (c :: cs) = 0 := by
  rw [List.count_eq_zero]
  intro hmem
  rcases (mem_wordPathsChildren ch (c :: cs)).mp hmem with ⟨p, hp, s, _, hx⟩
  apply h
  have : p.1 = c := (List.cons.injEq _ _ _ _ ▸ hx.symm).1
  exact this ▸ List.mem_map_of_mem (·.1) hp

theorem count_wordPaths (w : List Char) : ∀ n : TrieNode, NodeWF n →
    (wordPaths n).count w = if inTrie n w then 1 else 0 := by
  induction w with
  | nil =>
    intro n hwf
    obtain ⟨b, wd, ch⟩ := n
    rw [wordPaths_def, List.count_append, count_nil_wordPathsChildren]
    cases b <;> simp [inTrie, TrieNode.isWord]
  | cons c cs ih =>
    intro n hwf
    obtain ⟨b, wd, ch⟩ := n
    rw [NodeWF_def] at hwf
    rw [wordPaths_def, List.count_append]
    have hpre : (if b then [([] : List Char)] else []).count (c :: cs) = 0 := by
      cases b <;> simp
    rw [hpre, Nat.zero_add]
    show (wordPathsChildren ch).count (c :: cs) =
      if inTrie (TrieNode.mk b wd ch) (c :: cs) then 1 else 0
    obtain ⟨hnd, hcwf⟩ := hwf
    clear hpre
    induction ch with
    | nil =>
      simp [wordPathsChildren_nil, inTrie, TrieNode.children, findChild]
    | cons p rest ihch =>
      obtain ⟨c', child⟩ := p
      rw [ChildrenWF_cons] at hcwf
      simp only [List.map_cons, List.nodup_cons] at hnd
      rw [wordPathsChildren_cons, List.count_append]
      by_cases hc : c' = c
      · subst hc
        have h1 : ((wordPaths child).map (c' :: ·)).count (c' :: cs) =
            (wordPaths child).count cs := by
          generalize wordPaths child = l
          induction l with
          | nil => rfl
          | cons x xs ihl => simp [List.count_cons, ihl]
        have h2 : (wordPathsChildren rest).count (c' :: cs) = 0 :=
          count_cons_wordPathsChildren_of_not_key c' cs rest hnd.1
        rw [h1, h2, Nat.add_zero, ih child hcwf.1]
        simp [inTrie, TrieNode.children, findChild]
      · have h1 : ((wordPaths child).map (c' :: ·)).count (c :: cs) = 0 := by
          rw [List.count_eq_zero]
          intro hmem
          rcases List.mem_map.mp hmem with ⟨s, _, hx⟩
          exact hc (List.head_eq_of_cons_eq hx)
        rw [h1, Nat.zero_add]
        have := ihch hnd.2 hcwf.2
        rw [this]
        simp only [inTrie, TrieNode.children, findChild, if_neg hc]

theorem inTrie_foldl (ws : List (List Char)) : ∀ (t : TrieNode) (w : List Char),
    inTrie (ws.foldl insertWord t) w = true ↔ w ∈ ws ∨ inTrie t w = true := by
  induction ws with
  | nil => intro t w; simp
  | cons v vs ih =>
    intro t w
    rw [List.foldl_cons, ih, insertWord, inTrie_insertFrom]
    simp only [List.mem_cons]
    tauto

theorem NodeWF_foldl (ws : List (List Char)) : ∀ t : TrieNode, NodeWF t →
    NodeWF (ws.foldl insertWord t) := by
  induction ws with
  | nil => intro t h; simpa using h
  | cons v vs ih =>
    intro t h
    rw [List.foldl_cons]
    exact ih _ (NodeWF_insertFrom v t v h)

theorem inTrie_buildTrie (ws : List (List Char)) (w : List Char) :
    inTrie (buildTrie ws) w = true ↔ w ∈ ws := by
  rw [buildTrie, inTrie_foldl]
  simp [inTrie_emptyNode]

theorem NodeWF_buildTrie (ws : List (List Char)) : NodeWF (buildTrie ws) :=
  NodeWF_foldl ws emptyNode NodeWF_emptyNode

theorem count_wordPaths_buildTrie (ws : List (List Char)) (w : List Char) :
    (wordPaths (buildTrie ws)).count w = if w ∈ ws then 1 else 0 := by
  rw [count_wordPaths w (buildTrie ws) (NodeWF_buildTrie ws)]
  by_cases h : w ∈ ws
  · rw [if_pos ((inTrie_buildTrie ws w).mpr h), if_pos h]
  · rw [if_neg h, if_neg]
    intro hc
    exact h ((inTrie_buildTrie ws w).mp hc)

theorem subCount_iff_multisetLE (s m : List Char) :
    subCount s m = true ↔ (↑s : Multiset Char) ≤ (↑m : Multiset Char) := by
  rw [subCount_iff, Multiset.le_iff_count]
  constructor
  · intro h a
    rw [Multiset.coe_count, Multiset.coe_count]
    exact h a
  · intro h a
    have := h a
    rw [Multiset.coe_count, Multiset.coe_count] at this
    exact this

theorem mem_wordPaths_buildTrie (ws : List (List Char)) (w : List Char) :
    w ∈ wordPaths (buildTrie ws) ↔ w ∈ ws := by
  have hc := count_wordPaths_buildTrie ws w
  constructor
  · intro hmem
    by_contra hws
    rw [if_neg hws] at hc
    exact (List.count_eq_zero.mp hc) hmem
  · intro hws
    rw [if_pos hws] at hc
    have : 0 < (wordPaths (buildTrie ws)).count w := by omega
    exact List.count_pos_iff.mp this

end TrieLemmas

section AnagramClaims

/-- Claim C1 (anagram soundness): for every list of letters `M`, when the
trie is non-empty (the `anagram` call returns instead of raising), every
word yielded by `anagram(game_state, M)` is a word that was inserted into
the trie — it reaches a terminal node (`in_trie`) — and its letter multiset
is a sub-multiset of `Counter(M)`. -/
theorem C1_anagram_sound (gs : GameState) (ws : List (List Char))
    (M : List Char) (ys : List (List Char))
    (hws : gs.trie = buildTrie ws) (h : anagram gs M = .ok ys) :
    ∀ w ∈ ys, w ∈ ws ∧ inTrie gs.trie w = true ∧
      (↑w : Multiset Char) ≤ (↑M : Multiset Char) := by
  intro w hw
  rw [anagram] at h
  by_cases he : gs.trie.children.isEmpty
  · rw [if_pos he] at h
    exact absurd h (by simp)
  · rw [if_neg he] at h
    have hys : ys = anagramFrom gs.trie M [] := by
      cases h
      rfl
    subst hys
    rw [hws] at hw
    have hmem := (mem_anagramFrom _ M w).mp hw
    have hin : w ∈ ws := (mem_wordPaths_buildTrie ws w).mp hmem.1
    refine ⟨hin, ?_, (subCount_iff_multisetLE w M).mp hmem.2⟩
    rw [hws]
    exact (inTrie_buildTrie ws w).mpr hin

/-- Witness for C1 at a concrete input: dictionary `{cat}`, letters
`t, a, c, x`. -/
theorem C1_anagram_sound_witness :
    anagram ⟨[], [], buildTrie [['c', 'a', 't']]⟩ ['t', 'a', 'c', 'x'] =
      .ok [['c', 'a', 't']] ∧
    (['c', 'a', 't'] ∈ [['c', 'a', 't']] ∧
      inTrie (buildTrie [['c', 'a', 't']]) ['c', 'a', 't'] = true ∧
      (↑(['c', 'a', 't'] : List Char) : Multiset Char) ≤
        (↑(['t', 'a', 'c', 'x'] : List Char) : Multiset Char)) := by
  have heval : anagram ⟨[], [], buildTrie [['c', 'a', 't']]⟩ ['t', 'a', 'c', 'x'] =
      .ok [['c', 'a', 't']] := by
    simp [anagram, buildTrie, insertWord, insertFrom, findChild, emptyNode,
      replaceChild, anagramFrom_def, anagramChildren_cons, anagramChildren_nil,
      TrieNode.children, List.count_cons]
  refine ⟨heval, ?_⟩
  exact C1_anagram_sound ⟨[], [], buildTrie [['c', 'a', 't']]⟩
    [['c', 'a', 't']] ['t', 'a', 'c', 'x'] [['c', 'a', 't']] rfl heval
    ['c', 'a', 't'] (by simp)

/-- Claim C2 (anagram completeness): for every list of letters `M`, when
the trie is non-empty, every word inserted into the trie whose letter
multiset is a sub-multiset of `Counter(M)` is yielded by
`anagram(game_state, M)` exactly once per full traversal of the
generator. -/
theorem C2_anagram_complete (gs : GameState) (ws : List (List Char))
    (M w : List Char) (ys : List (List Char))
    (hws : gs.trie = buildTrie ws) (hw : w ∈ ws)
    (hsub : (↑w : Multiset Char) ≤ (↑M : Multiset Char))
    (h : anagram gs M = .ok ys) :
    ys.count w = 1 := by
  rw [anagram] at h
  by_cases he : gs.trie.children.isEmpty
  · rw [if_pos he] at h
    exact absurd h (by simp)
  · rw [if_neg he] at h
    have hys : ys = anagramFrom gs.trie M [] := by
      cases h
      rfl
    subst hys
    rw [hws, count_anagramFrom,
      if_pos ((subCount_iff_multisetLE w M).mpr hsub),
      count_wordPaths_buildTrie, if_pos hw]

/-- Witness for C2 at a concrete input: dictionary `{cat, dog}` (with `cat`
inserted twice), letters `t, a, c, x`; `cat` is yielded exactly once. -/
theorem C2_anagram_complete_witness :
    anagram ⟨[], [], buildTrie [['c', 'a', 't'], ['d', 'o', 'g'], ['c', 'a', 't']]⟩
        ['t', 'a', 'c', 'x'] = .ok [['c', 'a', 't']] ∧
    List.count ['c', 'a', 't'] [['c', 'a', 't']] = 1 := by
  have heval : anagram
      ⟨[], [], buildTrie [['c', 'a', 't'], ['d', 'o', 'g'], ['c', 'a', 't']]⟩
      ['t', 'a', 'c', 'x'] = .ok [['c', 'a', 't']] := by
    simp [anagram, buildTrie, insertWord, insertFrom, findChild, emptyNode,
      replaceChild, anagramFrom_def, anagramChildren_cons, anagramChildren_nil,
      TrieNode.children, List.count_cons]
  refine ⟨heval, ?_⟩
  exact C2_anagram_complete
    ⟨[], [], buildTrie [['c', 'a', 't'], ['d', 'o', 'g'], ['c', 'a', 't']]⟩
    [['c', 'a', 't'], ['d', 'o', 'g'], ['c', 'a', 't']]
    ['t', 'a', 'c', 'x'] ['c', 'a', 't'] [['c', 'a', 't']] rfl
    (by simp) (by decide) heval

end AnagramClaims

section PossibleWordsLemmas

theorem except_bind_ok {ε α β : Type} (a : α) (f : α → Except ε β) :
    (Except.ok a >>= f) = f a := rfl

theorem except_bind_error {ε α β : Type} (e : ε) (f : α → Except ε β) :
    ((Except.error e : Except ε α) >>= f) = Except.error e := rfl

theorem mkWord_poolLetters_of_ne (w : List Char) (ex : Option (List Char))
    (nl : List Char) (h : nl ≠ []) : (mkWord w ex (some nl)).poolLetters = nl := by
  match nl with
  | [] => exact absurd rfl h
  | x :: xs => rfl

theorem mem_insertByDesc {α : Type} (key : α → Nat) (x a : α) (l : List α) :
    a ∈ insertByDesc key x l ↔ a = x ∨ a ∈ l := by
  induction l with
  | nil => simp [insertByDesc]
  | cons y ys ih =>
    by_cases hk : key y ≤ key x
    · simp [insertByDesc, if_pos hk]
    · simp only [insertByDesc, if_neg hk, List.mem_cons, ih]
      tauto

theorem mem_sortByDesc {α : Type} (key : α → Nat) (a : α) (l : List α) :
    a ∈ sortByDesc key l ↔ a ∈ l := by
  induction l with
  | nil => simp [sortByDesc]
  | cons y ys ih =>
    rw [sortByDesc, List.foldr_cons]
    rw [show List.foldr (insertByDesc key) [] ys = sortByDesc key ys from rfl]
    rw [mem_insertByDesc, ih]
    simp

theorem extWordsFor_mem (gs : GameState) (e : List Char) (ebits : Nat)
    (ws : List (List Char)) : ∀ (l : List Word), extWordsFor gs e ebits ws = .ok l →
    ∀ wd ∈ l, ∃ w, wd = mkWord w (some e) (some (newLettersPoss gs w e)) ∧
      newLettersPoss gs w e ≠ [] ∧ e.length < w.length ∧ subCount e w = true := by
  induction ws with
  | nil =>
    intro l h wd hwd
    rw [extWordsFor] at h
    cases h
    exact absurd hwd (List.not_mem_nil wd)
  | cons w rest ih =>
    intro l h wd hwd
    rw [extWordsFor] at h
    rcases hgb : getBits w with _ | wbits
    · rw [hgb, except_bind_error] at h
      exact Except.noConfusion h
    · rw [hgb, except_bind_ok] at h
      rcases hrec : extWordsFor gs e ebits rest with _ | tail
      · rw [hrec, except_bind_error] at h
        exact Except.noConfusion h
      · rw [hrec, except_bind_ok] at h
        by_cases h1 : e.length < w.length ∧ wbits &&& ebits = ebits
        · rw [if_pos h1] at h
          by_cases h2 : subCount e w
          · rw [if_pos h2] at h
            by_cases h3 : (newLettersPoss gs w e).isEmpty
            · rw [if_pos h3] at h
              cases h
              exact ih _ hrec wd hwd
            · rw [if_neg h3] at h
              cases h
              rcases List.mem_cons.mp hwd with hwd | hwd
              · subst hwd
                exact ⟨w, rfl, by simpa using h3, h1.1, h2⟩
              · exact ih _ hrec wd hwd
          · rw [if_neg h2] at h
            cases h
            exact ih _ hrec wd hwd
        · rw [if_neg h1] at h
          cases h
          exact ih _ hrec wd hwd

theorem possibleExtLoop_mem (gs : GameState) (es : List (List Char)) :
    ∀ (l : List Word), possibleExtLoop gs es = .ok l → ∀ wd ∈ l,
    ∃ e ∈ es, ∃ w, wd = mkWord w (some e) (some (newLettersPoss gs w e)) ∧
      newLettersPoss gs w e ≠ [] ∧ e.length < w.length ∧ subCount e w = true := by
  induction es with
  | nil =>
    intro l h wd hwd
    rw [possibleExtLoop] at h
    cases h
    exact absurd hwd (List.not_mem_nil wd)
  | cons e es ih =>
    intro l h wd hwd
    rw [possibleExtLoop] at h
    rcases hgb : getBits e with _ | ebits
    · rw [hgb, except_bind_error] at h
      exact Except.noConfusion h
    · rw [hgb, except_bind_ok] at h
      rcases hh : extWordsFor gs e ebits (anagramFrom gs.trie (gs.pool ++ e) []) with _ | here
      · rw [hh, except_bind_error] at h
        exact Except.noConfusion h
      · rw [hh, except_bind_ok] at h
        rcases hr : possibleExtLoop gs es with _ | rest
        · rw [hr, except_bind_error] at h
          exact Except.noConfusion h
        · rw [hr, except_bind_ok] at h
          cases h
          rcases List.mem_append.mp hwd with hwd | hwd
          · rcases extWordsFor_mem gs e ebits _ here hh wd hwd with ⟨w, hw⟩
            exact ⟨e, List.mem_cons_self e es, w, hw⟩
          · rcases ih rest hr wd hwd with ⟨e', he', hrest⟩
            exact ⟨e', List.mem_cons_of_mem e he', hrest⟩

theorem getPossibleWords_mem (gs : GameState) (l : List Word)
    (h : getPossibleWords gs = .ok l) (wd : Word) (hwd : wd ∈ l)
    (e : List Char) (he : wd.existing = some e) :
    ∃ w, wd = mkWord w (some e) (some (newLettersPoss gs w e)) ∧
      newLettersPoss gs w e ≠ [] ∧ e.length < w.length ∧ subCount e w = true := by
  rw [getPossibleWords] at h
  by_cases hemp : gs.trie.children.isEmpty
  · rw [if_pos hemp] at h
    exact absurd h (by simp)
  · rw [if_neg hemp] at h
    rcases hext : possibleExtLoop gs gs.existingWords with _ | ext
    · rw [hext, except_bind_error] at h
      exact Except.noConfusion h
    · rw [hext, except_bind_ok] at h
      cases h
      rw [mem_sortByDesc] at hwd
      rcases List.mem_append.mp hwd with hwd | hwd
      · exfalso
        rcases List.mem_map.mp hwd with ⟨w, _, hw⟩
        rw [← hw] at he
        simp [mkWord] at he
      · rcases possibleExtLoop_mem gs gs.existingWords ext hext wd hwd with
          ⟨e', _, w, hw, hne, hlen, hsub⟩
        have he' : e' = e := by
          rw [hw] at he
          simpa [mkWord] using he
        subst he'
        exact ⟨w, hw, hne, hlen, hsub⟩

end PossibleWordsLemmas

section ExtensionClaim

/-- Claim C4 (existing-word extension invariant): every `Word` returned by
`get_possible_words()` whose `existing_word` field is set satisfies
`Counter(word) >= Counter(existing_word)` pointwise, `len(word) >
len(existing_word)`, and a non-empty `pool_letters` list; in particular a
word whose letters are exactly a permutation of the existing word is never
returned as an extension of that existing word. -/
theorem C4_extension_invariant (gs : GameState) (l : List Word)
    (h : getPossibleWords gs = .ok l) (wd : Word) (hwd : wd ∈ l)
    (e : List Char) (he : wd.existing = some e) :
    (∀ c, e.count c ≤ wd.word.count c) ∧ e.length < wd.word.length ∧
      wd.poolLetters ≠ [] ∧ ¬ wd.word.Perm e := by
  rcases getPossibleWords_mem gs l h wd hwd e he with ⟨w, hw, hne, hlen, hsub⟩
  have hword : wd.word = w := by rw [hw]; rfl
  refine ⟨?_, ?_, ?_, ?_⟩
  · intro c
    rw [hword]
    exact (subCount_iff e w).mp hsub c
  · rw [hword]
    exact hlen
  · rw [hw, mkWord_poolLetters_of_ne w (some e) _ hne]
    exact hne
  · intro hperm
    rw [hword] at hperm
    have := hperm.length_eq
    omega

/-- Witness for C4 at a concrete input: dictionary `{ab}`, pool `{b}`,
existing word `a`; `get_possible_words` returns `ab` extending `a` with
pool letter `b`. -/
theorem C4_extension_invariant_witness :
    getPossibleWords ⟨['b'], [['a']], buildTrie [['a', 'b']]⟩ =
      .ok [⟨['a', 'b'], some ['a'], ['b']⟩] ∧
    ((∀ c, List.count c ['a'] ≤ List.count c ['a', 'b']) ∧
      List.length ['a'] < List.length ['a', 'b'] ∧
      (['b'] : List Char) ≠ [] ∧ ¬ List.Perm ['a', 'b'] ['a']) := by
  have heval : getPossibleWords ⟨['b'], [['a']], buildTrie [['a', 'b']]⟩ =
      .ok [⟨['a', 'b'], some ['a'], ['b']⟩] := by
    simp [getPossibleWords, possibleExtLoop, extWordsFor, getBits,
      calculateWordBits, letterToBit, isAZ, newLettersPoss, subCount, mkWord,
      sortByDesc, insertByDesc, wordLen, anagram, buildTrie, insertWord,
      insertFrom, findChild, emptyNode, replaceChild, anagramFrom_def,
      anagramChildren_cons, anagramChildren_nil, TrieNode.children,
      List.count_cons, Except.bind]
    rfl
  refine ⟨heval, ?_⟩
  exact C4_extension_invariant ⟨['b'], [['a']], buildTrie [['a', 'b']]⟩
    [⟨['a', 'b'], some ['a'], ['b']⟩] heval ⟨['a', 'b'], some ['a'], ['b']⟩
    (by simp) ['a'] rfl

end ExtensionClaim

section ConservationClaim

/-- Claim C3 (letter conservation on claiming a word), evaluated at the
failing input: dictionary `{odd}`, pool `{d, d}`, existing word `do`.
`get_possible_words` returns exactly the word `odd` extending `do` with
`pool_letters = ['d', 'd']` (the comprehension counts both `d` occurrences
of `odd`, although only one `d` comes from the pool), and `remove_word`
then removes two `d`s from the pool: the combined letter multiset of pool
and existing words drops from `{d, d, d, o}` to `{d, d, o}`, so the
conservation invariant stated by the specification fails on this state. -/
theorem C3_remove_word_loses_letters :
    getPossibleWords ⟨['d', 'd'], [['d', 'o']], buildTrie [['o', 'd', 'd']]⟩ =
      .ok [⟨['o', 'd', 'd'], some ['d', 'o'], ['d', 'd']⟩] ∧
    totalLetters (removeWord ⟨['d', 'd'], [['d', 'o']], buildTrie [['o', 'd', 'd']]⟩
        ⟨['o', 'd', 'd'], some ['d', 'o'], ['d', 'd']⟩) ≠
      totalLetters ⟨['d', 'd'], [['d', 'o']], buildTrie [['o', 'd', 'd']]⟩ := by
  constructor
  · simp [getPossibleWords, possibleExtLoop, extWordsFor, getBits,
      calculateWordBits, letterToBit, isAZ, newLettersPoss, subCount, mkWord,
      sortByDesc, insertByDesc, wordLen, anagram, buildTrie, insertWord,
      insertFrom, findChild, emptyNode, replaceChild, anagramFrom_def,
      anagramChildren_cons, anagramChildren_nil, TrieNode.children,
      List.count_cons, Except.bind]
    rfl
  · decide

end ConservationClaim

section BitsLemmas

theorem letterToBit_eq_some (c : Char) (h : isAZ c = true) :
    letterToBit c = some (2 ^ (c.toNat - 97)) := by
  rw [letterToBit, if_pos h, Nat.shiftLeft_eq, Nat.one_mul]

theorem calculateWordBits_go_spec (w : List Char) : ∀ acc : Nat,
    (∀ c ∈ w, isAZ c = true) →
    ∃ b, w.foldlM (fun acc c => (letterToBit c).map (acc ||| ·)) acc = some b ∧
      ∀ i, (b.testBit i = true ↔ acc.testBit i = true ∨ ∃ c ∈ w, c.toNat - 97 = i) := by
  induction w with
  | nil =>
    intro acc _
    refine ⟨acc, rfl, ?_⟩
    simp
  | cons c rest ih =>
    intro acc hw
    have hc : isAZ c = true := hw c (List.mem_cons_self c rest)
    rcases ih (acc ||| 2 ^ (c.toNat - 97))
        (fun d hd => hw d (List.mem_cons_of_mem c hd)) with ⟨b, hb, hspec⟩
    refine ⟨b, ?_, ?_⟩
    · rw [List.foldlM_cons, letterToBit_eq_some c hc]
      exact hb
    · intro i
      rw [hspec i, Nat.testBit_lor, Nat.testBit_two_pow]
      constructor
      · intro h
        rcases h with h | h
        · rcases Bool.or_eq_true_iff.mp h with h | h
          · exact Or.inl h
          · exact Or.inr ⟨c, List.mem_cons_self c rest, of_decide_eq_true h⟩
        · rcases h with ⟨d, hd, hdi⟩
          exact Or.inr ⟨d, List.mem_cons_of_mem c hd, hdi⟩
      · intro h
        rcases h with h | ⟨d, hd, hdi⟩
        · exact Or.inl (Bool.or_eq_true_iff.mpr (Or.inl h))
        · rcases List.mem_cons.mp hd with hd | hd
          · subst hd
            exact Or.inl (Bool.or_eq_true_iff.mpr (Or.inr (decide_eq_true hdi)))
          · exact Or.inr ⟨d, hd, hdi⟩

theorem calculateWordBits_spec (w : List Char) (hw : ∀ c ∈ w, isAZ c = true) :
    ∃ b, calculateWordBits w = some b ∧
      ∀ i, (b.testBit i = true ↔ ∃ c ∈ w, c.toNat - 97 = i) := by
  rcases calculateWordBits_go_spec w 0 hw with ⟨b, hb, hspec⟩
  refine ⟨b, hb, ?_⟩
  intro i
  rw [hspec i]
  simp

theorem getBits_ok_of_az (w : List Char) (hw : ∀ c ∈ w, isAZ c = true) :
    ∃ b, getBits w = .ok b := by
  rcases calculateWordBits_spec w hw with ⟨b, hb, _⟩
  exact ⟨b, by rw [getBits, hb]⟩

theorem getLetterBit_ok_of_az (c : Char) (hc : isAZ c = true) :
    ∃ b, getLetterBit c = .ok b :=
  ⟨2 ^ (c.toNat - 97), by rw [getLetterBit, letterToBit_eq_some c hc]⟩

theorem countOnes_zero : countOnes 0 = 0 := rfl

theorem countOnes_two_pow (k : Nat) : countOnes (2 ^ k) = 1 := by
  induction k with
  | zero => decide
  | succ k ih =>
    rw [countOnes_eq]
    have h2 : (2 : Nat) ^ (k + 1) ≠ 0 := by positivity
    rw [if_neg h2]
    have hmod : 2 ^ (k + 1) % 2 = 0 := by
      rw [pow_succ, Nat.mul_mod_left]
    have hdiv : 2 ^ (k + 1) / 2 = 2 ^ k := by
      rw [pow_succ, Nat.mul_div_cancel]
      omega
    rw [hmod, hdiv, ih]

theorem eq_zero_of_testBit_false (n : Nat) (h : ∀ i, n.testBit i = false) :
    n = 0 := by
  apply Nat.eq_of_testBit_eq
  intro i
  rw [h i, Nat.zero_testBit]

theorem eq_two_pow_of_testBit_subset (n k : Nat) (h0 : n ≠ 0)
    (hsub : ∀ i, n.testBit i = true → i = k) : n = 2 ^ k := by
  have hk : n.testBit k = true := by
    by_contra hk
    apply h0
    apply eq_zero_of_testBit_false
    intro i
    by_cases hik : i = k
    · subst hik
      exact Bool.eq_false_iff.mpr hk
    · rcases hb : n.testBit i with _ | _
      · rfl
      · exact absurd (hsub i hb) hik
  apply Nat.eq_of_testBit_eq
  intro i
  by_cases hik : i = k
  · subst hik
    rw [hk, Nat.testBit_two_pow_self]
  · rw [Nat.testBit_two_pow]
    have h1 : n.testBit i = false := by
      rcases hb : n.testBit i with _ | _
      · rfl
      · exact absurd (hsub i hb) hik
    rw [h1]
    symm
    exact decide_eq_false (fun h => hik h.symm)

theorem countOnes_one_ne_zero (n : Nat) (h : countOnes n = 1) : n ≠ 0 := by
  intro h0
  rw [h0, countOnes_zero] at h
  exact Nat.noConfusion h

theorem log2_two_pow (k : Nat) : Nat.log2 (2 ^ k) = k := by
  rw [Nat.log2_eq_log_two]
  exact Nat.log_pow (by omega) k

theorem log2F_eq : ∀ fuel n : Nat, n ≤ fuel → log2F fuel n = Nat.log2 n := by
  intro fuel
  induction fuel using Nat.strong_induction_on with
  | _ fuel ih =>
    intro n h
    match fuel with
    | 0 =>
      have : n = 0 := by omega
      subst this
      rw [log2F.eq_def, Nat.log2]
      simp
    | k + 1 =>
      rw [log2F, Nat.log2]
      by_cases h2 : 2 ≤ n
      · rw [if_pos h2, if_pos h2, ih k (by omega) (n / 2) (by omega)]
      · rw [if_neg h2, if_neg h2]

theorem missingLetterOfBits_two_pow (k : Nat) :
    missingLetterOfBits (2 ^ k) = Char.ofNat (k + 97) := by
  rw [missingLetterOfBits, bitLength, if_neg (by positivity),
    log2F_eq _ _ le_rfl, log2_two_pow]

theorem testBit_diffBits (wb avail i : Nat) :
    (diffBits wb avail).testBit i = (wb.testBit i && !(avail.testBit i)) := by
  rw [diffBits, Nat.testBit_xor, Nat.testBit_land]
  cases wb.testBit i <;> cases avail.testBit i <;> rfl

/-- If every distinct letter of the word has its bit in the available mask,
the diff mask is zero. -/
theorem diffBits_eq_zero (w : List Char) (wb avail : Nat)
    (hwb : calculateWordBits w = some wb) (hw : ∀ c ∈ w, isAZ c = true)
    (hcover : ∀ c ∈ w, avail.testBit (c.toNat - 97) = true) :
    diffBits wb avail = 0 := by
  apply eq_zero_of_testBit_false
  intro i
  rw [testBit_diffBits]
  rcases hwbit : wb.testBit i with _ | _
  · rfl
  · rcases calculateWordBits_spec w hw with ⟨b, hb, hspec⟩
    rw [hwb] at hb
    cases hb
    rcases (hspec i).mp hwbit with ⟨c, hc, hci⟩
    rw [← hci, hcover c hc]
    rfl

/-- When the candidate letters are covered by the available set except for
occurrences of `L`, a one-bit diff mask can only be `L`'s bit, and the
recovered missing letter is `L` itself. -/
theorem missingLetter_eq (w : List Char) (wb avail : Nat) (L : Char)
    (hwb : calculateWordBits w = some wb) (hw : ∀ c ∈ w, isAZ c = true)
    (hcover : ∀ c ∈ w, c = L ∨ avail.testBit (c.toNat - 97) = true)
    (hL : isAZ L = true)
    (hcount : countOnes (diffBits wb avail) = 1) :
    missingLetterOfBits (diffBits wb avail) = L := by
  have haz : 97 ≤ L.toNat ∧ L.toNat ≤ 122 := by
    rw [isAZ] at hL
    exact ⟨by simpa using (Bool.and_eq_true_iff.mp hL).1,
      by simpa using (Bool.and_eq_true_iff.mp hL).2⟩
  have hsub : ∀ i, (diffBits wb avail).testBit i = true → i = L.toNat - 97 := by
    intro i hi
    rw [testBit_diffBits] at hi
    rcases Bool.and_eq_true_iff.mp hi with ⟨hwbit, havail⟩
    rcases calculateWordBits_spec w hw with ⟨b, hb, hspec⟩
    rw [hwb] at hb
    cases hb
    rcases (hspec i).mp hwbit with ⟨c, hc, hci⟩
    rcases hcover c hc with hcL | hcbit
    · rw [← hci, hcL]
    · rw [← hci] at havail
      rw [hcbit] at havail
      simp at havail
  have hpow : diffBits wb avail = 2 ^ (L.toNat - 97) :=
    eq_two_pow_of_testBit_subset _ _ (countOnes_one_ne_zero _ hcount) hsub
  rw [hpow, missingLetterOfBits_two_pow]
  have : L.toNat - 97 + 97 = L.toNat := by omega
  rw [this, Char.ofNat_toNat]

end BitsLemmas

section PotentialLemmas

theorem getBits_ok_iff (w : List Char) (b : Nat) :
    getBits w = .ok b ↔ calculateWordBits w = some b := by
  rw [getBits]
  rcases h : calculateWordBits w with _ | b'
  · simp
  · simp

theorem mem_of_subCount (w m : List Char) (h : subCount w m = true) :
    ∀ c ∈ w, c ∈ m := by
  intro c hc
  have h1 := (subCount_iff w m).mp h c
  have h2 : 0 < w.count c := List.count_pos_iff.mpr hc
  exact List.count_pos_iff.mp (by omega)

theorem anagramFrom_chars_az (t : TrieNode)
    (htrie : ∀ w ∈ wordPaths t, ∀ c ∈ w, isAZ c = true)
    (letters w : List Char) (hw : w ∈ anagramFrom t letters []) :
    ∀ c ∈ w, isAZ c = true :=
  htrie w ((mem_anagramFrom t letters w).mp hw).1

theorem anagramFrom_chars_mem (t : TrieNode) (letters w : List Char)
    (hw : w ∈ anagramFrom t letters []) : ∀ c ∈ w, c ∈ letters :=
  mem_of_subCount w letters ((mem_anagramFrom t letters w).mp hw).2

theorem newLettersPot_ok (e : List Char) (wdiff : Nat) (w : List Char)
    (hw : ∀ c ∈ w, isAZ c = true) : ∃ nl, newLettersPot e wdiff w = .ok nl := by
  induction w with
  | nil => exact ⟨[], rfl⟩
  | cons l rest ih =>
    rcases ih (fun c hc => hw c (List.mem_cons_of_mem l hc)) with ⟨tail, htail⟩
    by_cases hl : l ∉ e
    · refine ⟨l :: tail, ?_⟩
      rw [newLettersPot, if_pos hl, htail, except_bind_ok]
    · rcases getLetterBit_ok_of_az l (hw l (List.mem_cons_self l rest)) with ⟨b, hb⟩
      by_cases hbd : b &&& wdiff ≠ 0
      · refine ⟨l :: tail, ?_⟩
        rw [newLettersPot, if_neg hl, hb, except_bind_ok, htail, except_bind_ok,
          if_pos hbd]
      · refine ⟨tail, ?_⟩
        rw [newLettersPot, if_neg hl, hb, except_bind_ok, htail, except_bind_ok,
          if_neg hbd]

theorem checkAndAddWord_ok (w : List Char) (avail : Nat)
    (existing : Option (List Char)) (m : PotMap)
    (hw : ∀ c ∈ w, isAZ c = true)
    (hex : ∀ e, existing = some e → ∀ c ∈ e, isAZ c = true) :
    ∃ m', checkAndAddWord w avail existing m = .ok m' := by
  rcases getBits_ok_of_az w hw with ⟨wb, hwb⟩
  by_cases ht : truthyOpt existing = true
  · obtain ⟨e, he⟩ : ∃ e, existing = some e := by
      cases existing with
      | none => exact absurd ht (by simp [truthyOpt])
      | some e => exact ⟨e, rfl⟩
    subst he
    rcases getBits_ok_of_az e (hex e rfl) with ⟨eb, heb⟩
    rw [checkAndAddWord, hwb, except_bind_ok, if_pos ht]
    simp only [Option.getD_some]
    rw [heb, except_bind_ok]
    by_cases h1 : wb &&& eb ≠ eb
    · rw [if_pos h1]
      exact ⟨m, rfl⟩
    · rw [if_neg h1]
      by_cases h2 : wb = eb
      · rw [if_pos h2]
        exact ⟨m, rfl⟩
      · rw [if_neg h2]
        by_cases h3 : countOnes (diffBits wb avail) = 1
        · rw [if_pos h3]
          rcases newLettersPot_ok e (diffBits wb eb) w hw with ⟨nl, hnl⟩
          rw [hnl, except_bind_ok]
          by_cases h4 : nl.isEmpty
          · rw [if_pos h4]
            exact ⟨m, rfl⟩
          · rw [if_neg h4]
            exact ⟨_, rfl⟩
        · rw [if_neg h3]
          exact ⟨m, rfl⟩
  · rw [checkAndAddWord, hwb, except_bind_ok, if_neg ht]
    by_cases h3 : countOnes (diffBits wb avail) = 1
    · rw [if_pos h3]
      by_cases h4 : w.isEmpty
      · rw [if_pos h4]
        exact ⟨m, rfl⟩
      · rw [if_neg h4]
        exact ⟨_, rfl⟩
    · rw [if_neg h3]
      exact ⟨m, rfl⟩

theorem potPoolWords_ok (pb : Nat) (ws : List (List Char)) :
    ∀ m : PotMap, (∀ w ∈ ws, ∀ c ∈ w, isAZ c = true) →
    ∃ m', potPoolWords pb ws m = .ok m' := by
  induction ws with
  | nil => intro m _; exact ⟨m, rfl⟩
  | cons w rest ih =>
    intro m haz
    rcases checkAndAddWord_ok w pb none m (haz w (List.mem_cons_self w rest))
      (fun e he => Option.noConfusion he) with ⟨m1, hm1⟩
    rcases ih m1 (fun v hv => haz v (List.mem_cons_of_mem w hv)) with ⟨m', hm'⟩
    refine ⟨m', ?_⟩
    rw [potPoolWords, hm1, except_bind_ok]
    exact hm'

theorem potExtWords_ok (cb : Nat) (e : List Char) (ws : List (List Char)) :
    ∀ m : PotMap, (∀ w ∈ ws, ∀ c ∈ w, isAZ c = true) →
    (∀ c ∈ e, isAZ c = true) →
    ∃ m', potExtWords cb e ws m = .ok m' := by
  induction ws with
  | nil => intro m _ _; exact ⟨m, rfl⟩
  | cons w rest ih =>
    intro m haz haze
    have step : ∃ m1, (if e.length < w.length then checkAndAddWord w cb (some e) m
        else .ok m) = .ok m1 := by
      by_cases hl : e.length < w.length
      · rw [if_pos hl]
        exact checkAndAddWord_ok w cb (some e) m (haz w (List.mem_cons_self w rest))
          (fun e' he' => by cases he'; exact haze)
      · rw [if_neg hl]
        exact ⟨m, rfl⟩
    rcases step with ⟨m1, hm1⟩
    rcases ih m1 (fun v hv => haz v (List.mem_cons_of_mem w hv)) haze with ⟨m', hm'⟩
    refine ⟨m', ?_⟩
    rw [potExtWords, hm1, except_bind_ok]
    exact hm'

theorem potExistingLoop_ok (gs : GameState) (pb : Nat) (L : Char)
    (htrie : ∀ w ∈ wordPaths gs.trie, ∀ c ∈ w, isAZ c = true)
    (es : List (List Char)) :
    ∀ m : PotMap, (∀ e ∈ es, ∀ c ∈ e, isAZ c = true) →
    ∃ m', potExistingLoop gs pb L es m = .ok m' := by
  induction es with
  | nil => intro m _; exact ⟨m, rfl⟩
  | cons e rest ih =>
    intro m haz
    by_cases hL : L ∈ gs.pool ++ e
    · rcases ih m (fun v hv => haz v (List.mem_cons_of_mem e hv)) with ⟨m', hm'⟩
      refine ⟨m', ?_⟩
      rw [potExistingLoop, if_pos hL]
      exact hm'
    · rcases getBits_ok_of_az e (haz e (List.mem_cons_self e rest)) with ⟨eb, heb⟩
      rcases potExtWords_ok (pb ||| eb) e
          (anagramFrom gs.trie (gs.pool ++ e ++ [L]) []) m
          (fun w hw => anagramFrom_chars_az gs.trie htrie _ w hw)
          (haz e (List.mem_cons_self e rest)) with ⟨m1, hm1⟩
      rcases ih m1 (fun v hv => haz v (List.mem_cons_of_mem e hv)) with ⟨m', hm'⟩
      refine ⟨m', ?_⟩
      rw [potExistingLoop, if_neg hL, heb, except_bind_ok, hm1, except_bind_ok]
      exact hm'

theorem potLetterLoop_ok (gs : GameState) (pb : Nat)
    (htrie : ∀ w ∈ wordPaths gs.trie, ∀ c ∈ w, isAZ c = true)
    (hex : ∀ e ∈ gs.existingWords, ∀ c ∈ e, isAZ c = true)
    (cands : List (Char × Nat)) :
    ∀ (checked : Nat) (m : PotMap), ∃ m', potLetterLoop gs pb cands checked m = .ok m' := by
  induction cands with
  | nil => intro checked m; exact ⟨m, rfl⟩
  | cons p rest ih =>
    intro checked m
    obtain ⟨L, f⟩ := p
    by_cases hL : L ∈ gs.pool
    · rcases ih checked m with ⟨m', hm'⟩
      refine ⟨m', ?_⟩
      rw [potLetterLoop, if_pos hL]
      exact hm'
    · rcases potPoolWords_ok pb (anagramFrom gs.trie (gs.pool ++ [L]) []) m
        (fun w hw => anagramFrom_chars_az gs.trie htrie _ w hw) with ⟨m1, hm1⟩
      rcases potExistingLoop_ok gs pb L htrie gs.existingWords m1 hex with ⟨m2, hm2⟩
      by_cases hc : 11 ≤ checked + 1
      · refine ⟨m2, ?_⟩
        rw [potLetterLoop, if_neg hL, hm1, except_bind_ok, hm2, except_bind_ok,
          if_pos hc]
      · rcases ih (checked + 1) m2 with ⟨m', hm'⟩
        refine ⟨m', ?_⟩
        rw [potLetterLoop, if_neg hL, hm1, except_bind_ok, hm2, except_bind_ok,
          if_neg hc]
        exact hm'

theorem extWordsFor_ok (gs : GameState) (e : List Char) (ebits : Nat)
    (ws : List (List Char)) (haz : ∀ w ∈ ws, ∀ c ∈ w, isAZ c = true) :
    ∃ l, extWordsFor gs e ebits ws = .ok l := by
  induction ws with
  | nil => exact ⟨[], rfl⟩
  | cons w rest ih =>
    rcases getBits_ok_of_az w (haz w (List.mem_cons_self w rest)) with ⟨wb, hwb⟩
    rcases ih (fun v hv => haz v (List.mem_cons_of_mem w hv)) with ⟨tail, htail⟩
    rw [extWordsFor, hwb, except_bind_ok, htail, except_bind_ok]
    by_cases h1 : e.length < w.length ∧ wb &&& ebits = ebits
    · rw [if_pos h1]
      by_cases h2 : subCount e w
      · rw [if_pos h2]
        by_cases h3 : (newLettersPoss gs w e).isEmpty
        · rw [if_pos h3]
          exact ⟨tail, rfl⟩
        · rw [if_neg h3]
          exact ⟨_, rfl⟩
      · rw [if_neg h2]
        exact ⟨tail, rfl⟩
    · rw [if_neg h1]
      exact ⟨tail, rfl⟩

theorem possibleExtLoop_ok (gs : GameState)
    (htrie : ∀ w ∈ wordPaths gs.trie, ∀ c ∈ w, isAZ c = true)
    (es : List (List Char)) (haz : ∀ e ∈ es, ∀ c ∈ e, isAZ c = true) :
    ∃ l, possibleExtLoop gs es = .ok l := by
  induction es with
  | nil => exact ⟨[], rfl⟩
  | cons e rest ih =>
    rcases getBits_ok_of_az e (haz e (List.mem_cons_self e rest)) with ⟨eb, heb⟩
    rcases extWordsFor_ok gs e eb (anagramFrom gs.trie (gs.pool ++ e) [])
      (fun w hw => anagramFrom_chars_az gs.trie htrie _ w hw) with ⟨here, hh⟩
    rcases ih (fun v hv => haz v (List.mem_cons_of_mem e hv)) with ⟨rest', hr⟩
    refine ⟨here ++ rest', ?_⟩
    rw [possibleExtLoop, heb, except_bind_ok, hh, except_bind_ok, hr, except_bind_ok]

theorem appendToKey_keys (m : PotMap) (k : Char) (wd : Word) :
    ∀ a ∈ (appendToKey m k wd).map (·.1), a ∈ m.map (·.1) ∨ a = k := by
  intro a ha
  rw [appendToKey] at ha
  by_cases hk : m.any (fun p => p.1 = k)
  · rw [if_pos hk] at ha
    left
    rcases List.mem_map.mp ha with ⟨p, hp, hpa⟩
    rcases List.mem_map.mp hp with ⟨q, hq, hqp⟩
    have hfst : p.1 = q.1 := by
      rw [← hqp]
      by_cases hq1 : q.1 = k
      · rw [if_pos hq1]
      · rw [if_neg hq1]
    rw [← hpa, hfst]
    exact List.mem_map_of_mem (·.1) hq
  · rw [if_neg hk] at ha
    rw [List.map_append] at ha
    rcases List.mem_append.mp ha with ha | ha
    · exact Or.inl ha
    · right
      simpa using ha

theorem checkAndAddWord_keys (w : List Char) (avail : Nat)
    (ex : Option (List Char)) (m m' : PotMap) (L : Char)
    (h : checkAndAddWord w avail ex m = .ok m')
    (hmiss : ∀ wb, calculateWordBits w = some wb →
      countOnes (diffBits wb avail) = 1 →
      missingLetterOfBits (diffBits wb avail) = L) :
    ∀ a ∈ m'.map (·.1), a ∈ m.map (·.1) ∨ a = L := by
  intro a ha
  rw [checkAndAddWord] at h
  rcases hwb : getBits w with _ | wb
  · rw [hwb, except_bind_error] at h
    exact Except.noConfusion h
  · rw [hwb, except_bind_ok] at h
    have hcwb : calculateWordBits w = some wb := (getBits_ok_iff w wb).mp hwb
    by_cases ht : truthyOpt ex = true
    · rw [if_pos ht] at h
      rcases heb : getBits (ex.getD []) with _ | eb
      · rw [heb, except_bind_error] at h
        exact Except.noConfusion h
      · rw [heb, except_bind_ok] at h
        by_cases h1 : wb &&& eb ≠ eb
        · rw [if_pos h1] at h
          cases h
          exact Or.inl ha
        · rw [if_neg h1] at h
          by_cases h2 : wb = eb
          · rw [if_pos h2] at h
            cases h
            exact Or.inl ha
          · rw [if_neg h2] at h
            by_cases h3 : countOnes (diffBits wb avail) = 1
            · rw [if_pos h3] at h
              rcases hnl : newLettersPot (ex.getD []) (diffBits wb eb) w with _ | nl
              · rw [hnl, except_bind_error] at h
                exact Except.noConfusion h
              · rw [hnl, except_bind_ok] at h
                by_cases h4 : nl.isEmpty
                · rw [if_pos h4] at h
                  cases h
                  exact Or.inl ha
                · rw [if_neg h4] at h
                  cases h
                  rw [hmiss wb hcwb h3] at ha
                  exact appendToKey_keys m L _ a ha
            · rw [if_neg h3] at h
              cases h
              exact Or.inl ha
    · rw [if_neg ht] at h
      by_cases h3 : countOnes (diffBits wb avail) = 1
      · rw [if_pos h3] at h
        by_cases h4 : w.isEmpty
        · rw [if_pos h4] at h
          cases h
          exact Or.inl ha
        · rw [if_neg h4] at h
          cases h
          rw [hmiss wb hcwb h3] at ha
          exact appendToKey_keys m L _ a ha
      · rw [if_neg h3] at h
        cases h
        exact Or.inl ha

theorem potPoolWords_keys (pb : Nat) (ws : List (List Char)) :
    ∀ (m m' : PotMap) (L : Char),
    potPoolWords pb ws m = .ok m' →
    (∀ w ∈ ws, ∀ wb, calculateWordBits w = some wb →
      countOnes (diffBits wb pb) = 1 →
      missingLetterOfBits (diffBits wb pb) = L) →
    ∀ a ∈ m'.map (·.1), a ∈ m.map (·.1) ∨ a = L := by
  induction ws with
  | nil =>
    intro m m' L h _ a ha
    rw [potPoolWords] at h
    cases h
    exact Or.inl ha
  | cons w rest ih =>
    intro m m' L h hmiss a ha
    rw [potPoolWords] at h
    rcases hc : checkAndAddWord w pb none m with _ | m1
    · rw [hc, except_bind_error] at h
      exact Except.noConfusion h
    · rw [hc, except_bind_ok] at h
      rcases ih m1 m' L h (fun v hv => hmiss v (List.mem_cons_of_mem w hv)) a ha with
        ha1 | ha1
      · exact checkAndAddWord_keys w pb none m m1 L hc
          (hmiss w (List.mem_cons_self w rest)) a ha1
      · exact Or.inr ha1

theorem potExtWords_keys (cb : Nat) (e : List Char) (ws : List (List Char)) :
    ∀ (m m' : PotMap) (L : Char),
    potExtWords cb e ws m = .ok m' →
    (∀ w ∈ ws, ∀ wb, calculateWordBits w = some wb →
      countOnes (diffBits wb cb) = 1 →
      missingLetterOfBits (diffBits wb cb) = L) →
    ∀ a ∈ m'.map (·.1), a ∈ m.map (·.1) ∨ a = L := by
  induction ws with
  | nil =>
    intro m m' L h _ a ha
    rw [potExtWords] at h
    cases h
    exact Or.inl ha
  | cons w rest ih =>
    intro m m' L h hmiss a ha
    rw [potExtWords] at h
    rcases hstep : (if e.length < w.length then checkAndAddWord w cb (some e) m
        else Except.ok m) with _ | m1
    · rw [hstep, except_bind_error] at h
      exact Except.noConfusion h
    · rw [hstep, except_bind_ok] at h
      have hkeys1 : ∀ b ∈ m1.map (·.1), b ∈ m.map (·.1) ∨ b = L := by
        by_cases hl : e.length < w.length
        · rw [if_pos hl] at hstep
          exact checkAndAddWord_keys w cb (some e) m m1 L hstep
            (hmiss w (List.mem_cons_self w rest))
        · rw [if_neg hl] at hstep
          cases hstep
          exact fun b hb => Or.inl hb
      rcases ih m1 m' L h (fun v hv => hmiss v (List.mem_cons_of_mem w hv)) a ha with
        ha1 | ha1
      · exact hkeys1 a ha1
      · exact Or.inr ha1

theorem potExistingLoop_keys (gs : GameState) (pb : Nat) (L : Char)
    (es : List (List Char)) :
    ∀ (m m' : PotMap),
    potExistingLoop gs pb L es m = .ok m' →
    (∀ e ∈ es, ∀ eb, calculateWordBits e = some eb →
      ∀ w ∈ anagramFrom gs.trie (gs.pool ++ e ++ [L]) [],
        ∀ wb, calculateWordBits w = some wb →
          countOnes (diffBits wb (pb ||| eb)) = 1 →
          missingLetterOfBits (diffBits wb (pb ||| eb)) = L) →
    ∀ a ∈ m'.map (·.1), a ∈ m.map (·.1) ∨ a = L := by
  induction es with
  | nil =>
    intro m m' h _ a ha
    rw [potExistingLoop] at h
    cases h
    exact Or.inl ha
  | cons e rest ih =>
    intro m m' h hmiss a ha
    rw [potExistingLoop] at h
    by_cases hL : L ∈ gs.pool ++ e
    · rw [if_pos hL] at h
      exact ih m m' h (fun v hv => hmiss v (List.mem_cons_of_mem e hv)) a ha
    · rw [if_neg hL] at h
      rcases heb : getBits e with _ | eb
      · rw [heb, except_bind_error] at h
        exact Except.noConfusion h
      · rw [heb, except_bind_ok] at h
        rcases hm1 : potExtWords (pb ||| eb) e
            (anagramFrom gs.trie (gs.pool ++ e ++ [L]) []) m with _ | m1
        · rw [hm1, except_bind_error] at h
          exact Except.noConfusion h
        · rw [hm1, except_bind_ok] at h
          rcases ih m1 m' h (fun v hv => hmiss v (List.mem_cons_of_mem e hv)) a ha with
            ha1 | ha1
          · exact potExtWords_keys (pb ||| eb) e _ m m1 L hm1
              (fun w hw => hmiss e (List.mem_cons_self e rest) eb
                ((getBits_ok_iff e eb).mp heb) w hw) a ha1
          · exact Or.inr ha1

/-- The one-bit diff mask of any anagram of `pool + extra + [L]` (all
letters `a`..`z`) against an available mask covering the pool and the extra
letters recovers exactly the candidate letter `L`. -/
theorem missingLetter_of_anagram (gs : GameState) (extra : List Char)
    (L : Char) (avail : Nat)
    (hL : isAZ L = true)
    (hcover : ∀ c, (c ∈ gs.pool ∨ c ∈ extra) → avail.testBit (c.toNat - 97) = true)
    (w : List Char) (hw : w ∈ anagramFrom gs.trie (gs.pool ++ extra ++ [L]) [])
    (hwaz : ∀ c ∈ w, isAZ c = true)
    (wb : Nat) (hwb : calculateWordBits w = some wb)
    (hcount : countOnes (diffBits wb avail) = 1) :
    missingLetterOfBits (diffBits wb avail) = L := by
  apply missingLetter_eq w wb avail L hwb hwaz _ hL hcount
  intro c hc
  have hmem := anagramFrom_chars_mem gs.trie _ w hw c hc
  rcases List.mem_append.mp hmem with hmem | hmem
  · rcases List.mem_append.mp hmem with hmem | hmem
    · exact Or.inr (hcover c (Or.inl hmem))
    · exact Or.inr (hcover c (Or.inr hmem))
  · left
    simpa using hmem

theorem potLetterLoop_keys (gs : GameState) (pb : Nat)
    (hpool : ∀ c ∈ gs.pool, isAZ c = true)
    (hex : ∀ e ∈ gs.existingWords, ∀ c ∈ e, isAZ c = true)
    (htrie : ∀ w ∈ wordPaths gs.trie, ∀ c ∈ w, isAZ c = true)
    (hpb : calculateWordBits gs.pool = some pb)
    (cands : List (Char × Nat))
    (hcaz : ∀ p ∈ cands, isAZ p.1 = true) :
    ∀ (checked : Nat) (m m' : PotMap), checked < 11 →
    potLetterLoop gs pb cands checked m = .ok m' →
    ∀ a ∈ m'.map (·.1), a ∈ m.map (·.1) ∨
      a ∈ ((cands.map (·.1)).filter (fun c => c ∉ gs.pool)).take (11 - checked) := by
  have hpbspec : ∀ i, (pb.testBit i = true ↔ ∃ c ∈ gs.pool, c.toNat - 97 = i) := by
    rcases calculateWordBits_spec gs.pool hpool with ⟨b, hb, hspec⟩
    rw [hpb] at hb
    cases hb
    exact hspec
  induction cands with
  | nil =>
    intro checked m m' _ h a ha
    rw [potLetterLoop] at h
    cases h
    exact Or.inl ha
  | cons p rest ih =>
    intro checked m m' hch h a ha
    obtain ⟨L, f⟩ := p
    have hLaz : isAZ L = true := hcaz (L, f) (List.mem_cons_self _ _)
    have hcaz' : ∀ p ∈ rest, isAZ p.1 = true :=
      fun q hq => hcaz q (List.mem_cons_of_mem _ hq)
    by_cases hL : L ∈ gs.pool
    · rw [potLetterLoop, if_pos hL] at h
      have hfilter : ((((L, f) :: rest).map (·.1)).filter (fun c => c ∉ gs.pool)) =
          ((rest.map (·.1)).filter (fun c => c ∉ gs.pool)) := by
        rw [List.map_cons, List.filter_cons]
        simp [hL]
      rw [hfilter]
      exact ih hcaz' checked m m' hch h a ha
    · rw [potLetterLoop, if_neg hL] at h
      rcases hm1 : potPoolWords pb (anagramFrom gs.trie (gs.pool ++ [L]) []) m
        with _ | m1
      · rw [hm1, except_bind_error] at h
        exact Except.noConfusion h
      · rw [hm1, except_bind_ok] at h
        rcases hm2 : potExistingLoop gs pb L gs.existingWords m1 with _ | m2
        · rw [hm2, except_bind_error] at h
          exact Except.noConfusion h
        · rw [hm2, except_bind_ok] at h
          have hkeys1 : ∀ b ∈ m1.map (·.1), b ∈ m.map (·.1) ∨ b = L := by
            apply potPoolWords_keys pb _ m m1 L hm1
            intro w hw wb hwb hcount
            have hw' : w ∈ anagramFrom gs.trie (gs.pool ++ [] ++ [L]) [] := by
              simpa using hw
            apply missingLetter_of_anagram gs [] L pb hLaz _ w hw'
              (anagramFrom_chars_az gs.trie htrie _ w
                (by simpa using hw)) wb hwb hcount
            intro c hc
            rcases hc with hc | hc
            · exact (hpbspec (c.toNat - 97)).mpr ⟨c, hc, rfl⟩
            · exact absurd hc (List.not_mem_nil c)
          have hkeys2 : ∀ b ∈ m2.map (·.1), b ∈ m1.map (·.1) ∨ b = L := by
            apply potExistingLoop_keys gs pb L gs.existingWords m1 m2 hm2
            intro e he eb heb w hw wb hwb hcount
            have hebspec : ∀ i, (eb.testBit i = true ↔ ∃ c ∈ e, c.toNat - 97 = i) := by
              rcases calculateWordBits_spec e (hex e he) with ⟨b, hb, hspec⟩
              rw [heb] at hb
              cases hb
              exact hspec
            apply missingLetter_of_anagram gs e L (pb ||| eb) hLaz _ w hw
              (anagramFrom_chars_az gs.trie htrie _ w hw) wb hwb hcount
            intro c hc
            rw [Nat.testBit_lor]
            rcases hc with hc | hc
            · rw [(hpbspec (c.toNat - 97)).mpr ⟨c, hc, rfl⟩]
              rfl
            · rw [(hebspec (c.toNat - 97)).mpr ⟨c, hc, rfl⟩]
              simp
          have hfilter : ((((L, f) :: rest).map (·.1)).filter (fun c => c ∉ gs.pool)) =
              L :: ((rest.map (·.1)).filter (fun c => c ∉ gs.pool)) := by
            rw [List.map_cons, List.filter_cons]
            simp [hL]
          by_cases hc11 : 11 ≤ checked + 1
          · rw [if_pos hc11] at h
            cases h
            rcases hkeys2 a ha with ha1 | ha1
            · rcases hkeys1 a ha1 with ha2 | ha2
              · exact Or.inl ha2
              · right
                rw [hfilter]
                have h1 : 1 ≤ 11 - checked := by omega
                rcases Nat.exists_eq_add_of_le h1 with ⟨k, hk⟩
                rw [hk, Nat.add_comm 1 k, List.take_succ_cons]
                subst ha2
                exact List.mem_cons_self _ _
            · right
              rw [hfilter]
              have h1 : 1 ≤ 11 - checked := by omega
              rcases Nat.exists_eq_add_of_le h1 with ⟨k, hk⟩
              rw [hk, Nat.add_comm 1 k, List.take_succ_cons]
              subst ha1
              exact List.mem_cons_self _ _
          · rw [if_neg hc11] at h
            have hch' : checked + 1 < 11 := by omega
            rcases ih hcaz' (checked + 1) m2 m' hch' h a ha with ha1 | ha1
            · rcases hkeys2 a ha1 with ha2 | ha2
              · rcases hkeys1 a ha2 with ha3 | ha3
                · exact Or.inl ha3
                · right
                  rw [hfilter]
                  have hk : 11 - checked = (11 - (checked + 1)) + 1 := by omega
                  rw [hk, List.take_succ_cons]
                  subst ha3
                  exact List.mem_cons_self _ _
              · right
                rw [hfilter]
                have hk : 11 - checked = (11 - (checked + 1)) + 1 := by omega
                rw [hk, List.take_succ_cons]
                subst ha2
                exact List.mem_cons_self _ _
            · right
              rw [hfilter]
              have hk : 11 - checked = (11 - (checked + 1)) + 1 := by omega
              rw [hk, List.take_succ_cons]
              exact List.mem_cons_of_mem _ ha1

end PotentialLemmas

section PotentialClaims

/-- Claim C7 (exactly-one-missing-letter check): for the pool branch of
`get_potential_words` (no existing word), a word handed to
`check_and_add_word` is recorded if and only if
`diff = word_bits & ~available_bits` has exactly one set bit — and then it
is recorded under the letter recovered from that bit's position with the
word's own letters as `pool_letters`; consequently a word whose every
distinct letter already appears in the available letter set (including a
word needing a second copy of a letter present only once, which the
multiplicity-blind mask cannot see) is never recorded. -/
theorem C7_one_missing_bit (w P : List Char) (wb pb : Nat) (m : PotMap)
    (hwb : calculateWordBits w = some wb) (hpb : calculateWordBits P = some pb)
    (hw : ∀ c ∈ w, isAZ c = true) (hP : ∀ c ∈ P, isAZ c = true) :
    checkAndAddWord w pb none m =
      .ok (if countOnes (diffBits wb pb) = 1 then
          appendToKey m (missingLetterOfBits (diffBits wb pb)) (mkWord w none (some w))
        else m) ∧
    ((∀ c ∈ w, c ∈ P) → checkAndAddWord w pb none m = .ok m) := by
  have hbits : getBits w = .ok wb := (getBits_ok_iff w wb).mpr hwb
  have hmain : checkAndAddWord w pb none m =
      .ok (if countOnes (diffBits wb pb) = 1 then
          appendToKey m (missingLetterOfBits (diffBits wb pb)) (mkWord w none (some w))
        else m) := by
    rw [checkAndAddWord, hbits, except_bind_ok,
      if_neg (by rw [truthyOpt]; exact Bool.false_ne_true)]
    by_cases h3 : countOnes (diffBits wb pb) = 1
    · rw [if_pos h3, if_pos h3]
      have hwne : ¬ w.isEmpty = true := by
        intro hemp
        have hwnil : w = [] := List.isEmpty_iff.mp hemp
        subst hwnil
        have : wb = 0 := by
          rw [calculateWordBits] at hwb
          exact (Option.some.inj hwb).symm
        subst this
        have hd0 : diffBits 0 pb = 0 := by
          apply eq_zero_of_testBit_false
          intro i
          rw [testBit_diffBits, Nat.zero_testBit]
          rfl
        rw [hd0, countOnes_zero] at h3
        exact Nat.noConfusion h3
      rw [if_neg hwne]
    · rw [if_neg h3, if_neg h3]
  refine ⟨hmain, ?_⟩
  intro hcover
  have hpbspec : ∀ i, (pb.testBit i = true ↔ ∃ c ∈ P, c.toNat - 97 = i) := by
    rcases calculateWordBits_spec P hP with ⟨b, hb, hspec⟩
    rw [hpb] at hb
    cases hb
    exact hspec
  have hd0 : diffBits wb pb = 0 := by
    apply diffBits_eq_zero w wb pb hwb hw
    intro c hc
    exact (hpbspec (c.toNat - 97)).mpr ⟨c, hcover c hc, rfl⟩
  rw [hmain, hd0, countOnes_zero]
  norm_num

/-- Witness for C7 at a concrete input: the word `miss` against the
available letters `m, i, s` — every distinct letter of `miss` is present,
only a second copy of `s` is missing, and the word is not recorded; the
characterising equality is also instantiated. -/
theorem C7_one_missing_bit_witness :
    (checkAndAddWord ['m', 'i', 's', 's'] 266496 none [] =
      .ok (if countOnes (diffBits 266496 266496) = 1 then
          appendToKey [] (missingLetterOfBits (diffBits 266496 266496))
            (mkWord ['m', 'i', 's', 's'] none (some ['m', 'i', 's', 's']))
        else []) ∧
    ((∀ c ∈ ['m', 'i', 's', 's'], c ∈ ['m', 'i', 's']) →
      checkAndAddWord ['m', 'i', 's', 's'] 266496 none [] = .ok [])) ∧
    checkAndAddWord ['m', 'i', 's', 's'] 266496 none [] = .ok [] := by
  have h := C7_one_missing_bit ['m', 'i', 's', 's'] ['m', 'i', 's']
    266496 266496 [] (by decide) (by decide) (by decide) (by decide)
  exact ⟨h, h.2 (by decide)⟩

/-- Claim C8 (eleven-letter cutoff): `get_potential_words` iterates the
candidate missing letters in the fixed descending-frequency order of the
26-entry Scrabble table, letters already in the pool are not counted toward
the bound, the loop stops after 11 candidate letters not in the pool, and
no letter beyond that cutoff can appear as a key of the returned mapping. -/
theorem C8_eleven_letter_cutoff (gs : GameState) (m : PotMap)
    (hpool : ∀ c ∈ gs.pool, isAZ c = true)
    (hex : ∀ e ∈ gs.existingWords, ∀ c ∈ e, isAZ c = true)
    (htrie : ∀ w ∈ wordPaths gs.trie, ∀ c ∈ w, isAZ c = true)
    (h : getPotentialWords gs = .ok m) :
    freqSorted.map (·.1) =
      ['e', 'a', 'i', 'o', 'n', 'r', 't', 'l', 's', 'u', 'd', 'g', 'b',
       'c', 'm', 'p', 'f', 'h', 'v', 'w', 'y', 'k', 'j', 'x', 'q', 'z'] ∧
    ∀ k ∈ m.map (·.1),
      k ∈ ((freqSorted.map (·.1)).filter (fun c => c ∉ gs.pool)).take 11 := by
  refine ⟨by rfl, ?_⟩
  intro k hk
  rw [getPotentialWords] at h
  by_cases hemp : gs.trie.children.isEmpty
  · rw [if_pos hemp] at h
    exact Except.noConfusion h
  · rw [if_neg hemp] at h
    rcases hpb : getBits gs.pool with _ | pb
    · rw [hpb, except_bind_error] at h
      exact Except.noConfusion h
    · rw [hpb, except_bind_ok] at h
      rcases hloop : potLetterLoop gs pb freqSorted 0 [] with _ | m0
      · rw [hloop, except_bind_error] at h
        exact Except.noConfusion h
      · rw [hloop, except_bind_ok] at h
        cases h
        have hk0 : k ∈ m0.map (·.1) := by
          rw [List.map_map] at hk
          simpa using hk
        have := potLetterLoop_keys gs pb hpool hex htrie
          ((getBits_ok_iff _ _).mp hpb) freqSorted (by decide) 0 [] m0
          (by omega) hloop k hk0
        rcases this with habs | hmem
        · simp at habs
        · simpa using hmem

/-- Witness for C8 at a concrete input: dictionary `{at}`, pool `{a}`, no
existing words; `get_potential_words` returns the single key `t`, which is
among the first eleven frequency-ordered letters not in the pool. -/
theorem C8_eleven_letter_cutoff_witness :
    getPotentialWords ⟨['a'], [], buildTrie [['a', 't']]⟩ =
      .ok [('t', [⟨['a', 't'], none, ['a', 't']⟩])] ∧
    (freqSorted.map (·.1) =
      ['e', 'a', 'i', 'o', 'n', 'r', 't', 'l', 's', 'u', 'd', 'g', 'b',
       'c', 'm', 'p', 'f', 'h', 'v', 'w', 'y', 'k', 'j', 'x', 'q', 'z'] ∧
    ∀ k ∈ ([('t', [⟨['a', 't'], none, ['a', 't']⟩])] : PotMap).map (·.1),
      k ∈ ((freqSorted.map (·.1)).filter
        (fun c => c ∉ (⟨['a'], [], buildTrie [['a', 't']]⟩ : GameState).pool)).take 11) := by
  have heval : getPotentialWords ⟨['a'], [], buildTrie [['a', 't']]⟩ =
      .ok [('t', [⟨['a', 't'], none, ['a', 't']⟩])] := by rfl
  refine ⟨heval, ?_⟩
  exact C8_eleven_letter_cutoff ⟨['a'], [], buildTrie [['a', 't']]⟩
    [('t', [⟨['a', 't'], none, ['a', 't']⟩])] (by decide) (by simp)
    (by decide) heval

end PotentialClaims

section EmptyTrieClaims

/-- C9, counterexample to the claim as stated: with the non-empty dictionary
`{cat}` but the non-letter `'1'` in the pool, `get_potential_words` raises a
`KeyError` from the `letter_to_bit` lookup instead of returning normally, so
a non-empty trie does not suffice for the queries not to raise. -/
theorem C9_empty_dictionary_counterexample :
    (buildTrie [['c', 'a', 't']]).children.isEmpty = false ∧
    getPotentialWords ⟨['1'], [], buildTrie [['c', 'a', 't']]⟩ =
      .error .keyError := by
  exact ⟨rfl, rfl⟩

/-- C9 (amended): if the trie root has no children, `get_possible_words`
and `get_potential_words` each fail immediately with the empty-trie
`ValueError`; if the trie is non-empty and every pool letter, every letter
of every existing word and every letter of every trie word is a lowercase
letter `a`..`z`, then neither query raises: each returns normally (with a
possibly empty list / mapping). -/
theorem C9_empty_dictionary_amended (gs : GameState)
    (hpool : ∀ c ∈ gs.pool, isAZ c = true)
    (hex : ∀ e ∈ gs.existingWords, ∀ c ∈ e, isAZ c = true)
    (htrie : ∀ w ∈ wordPaths gs.trie, ∀ c ∈ w, isAZ c = true) :
    (gs.trie.children.isEmpty = true →
      getPossibleWords gs = .error .emptyTrie ∧
      getPotentialWords gs = .error .emptyTrie) ∧
    (gs.trie.children.isEmpty = false →
      (∃ l, getPossibleWords gs = .ok l) ∧
      ∃ m, getPotentialWords gs = .ok m) := by
  constructor
  · intro hemp
    constructor
    · rw [getPossibleWords, if_pos hemp]
    · rw [getPotentialWords, if_pos hemp]
  · intro hemp
    have hemp' : ¬ (gs.trie.children.isEmpty = true) := by
      rw [hemp]; exact Bool.false_ne_true
    constructor
    · rcases possibleExtLoop_ok gs htrie gs.existingWords hex with ⟨l, hl⟩
      refine ⟨sortByDesc wordLen
        ((anagramFrom gs.trie gs.pool []).map (fun w => mkWord w none (some w)) ++ l), ?_⟩
      rw [getPossibleWords, if_neg hemp']
      rw [hl, except_bind_ok]
    · rcases getBits_ok_of_az gs.pool hpool with ⟨pb, hpb⟩
      rcases potLetterLoop_ok gs pb htrie hex freqSorted 0 [] with ⟨m, hm⟩
      refine ⟨m.map (fun p => (p.1, sortByDesc wordLen p.2)), ?_⟩
      rw [getPotentialWords, if_neg hemp']
      rw [hpb, except_bind_ok, hm, except_bind_ok]

/-- Witness for the amended C9 at a concrete input: dictionary `{on}`, pool
`{o}`, existing word `n` — the trie is non-empty and both queries return
normally. -/
theorem C9_empty_dictionary_amended_witness :
    (((⟨['o'], [['n']], buildTrie [['o', 'n']]⟩ : GameState).trie.children.isEmpty = true →
      getPossibleWords ⟨['o'], [['n']], buildTrie [['o', 'n']]⟩ = .error .emptyTrie ∧
      getPotentialWords ⟨['o'], [['n']], buildTrie [['o', 'n']]⟩ = .error .emptyTrie) ∧
    ((⟨['o'], [['n']], buildTrie [['o', 'n']]⟩ : GameState).trie.children.isEmpty = false →
      (∃ l, getPossibleWords ⟨['o'], [['n']], buildTrie [['o', 'n']]⟩ = .ok l) ∧
      ∃ m, getPotentialWords ⟨['o'], [['n']], buildTrie [['o', 'n']]⟩ = .ok m)) :=
  C9_empty_dictionary_amended ⟨['o'], [['n']], buildTrie [['o', 'n']]⟩
    (by decide) (by decide) (by decide)

end EmptyTrieClaims

section SerializationLemmas

theorem utf8EncodeCp_ascii (c : Nat) (h : c < 128) : utf8EncodeCp c = [c] := by
  rw [utf8EncodeCp, if_pos h]

theorem utf8Encode_ascii (s : List Nat) (h : ∀ c ∈ s, c < 128) :
    utf8Encode s = some s := by
  induction s with
  | nil => rfl
  | cons c rest ih =>
    have hc : c < 128 := h c (List.mem_cons_self c rest)
    have hns : (isSurrogate c || decide (1114112 ≤ c)) = false := by
      rw [isSurrogate]
      simp only [Bool.or_eq_false_iff, Bool.and_eq_false_iff,
        decide_eq_false_iff_not, not_le]
      omega
    rw [utf8Encode, hns]
    rw [if_neg Bool.false_ne_true]
    rw [ih (fun d hd => h d (List.mem_cons_of_mem c hd)),
      utf8EncodeCp_ascii c hc]
    rfl

theorem utf8Decode_ascii (s : List Nat) (h : ∀ c ∈ s, c < 128) :
    utf8Decode s = some s := by
  induction s with
  | nil => rfl
  | cons b rest ih =>
    have hb : b < 128 := h b (List.mem_cons_self b rest)
    rw [utf8Decode, if_pos hb,
      ih (fun d hd => h d (List.mem_cons_of_mem b hd))]
    rfl

theorem b64CharOf_lt (i : Nat) : b64CharOf i < 128 := by
  rw [b64CharOf]
  split
  · omega
  · split
    · omega
    · split
      · omega
      · split <;> omega

theorem mem_b64Encode_lt (bs : List Nat) : ∀ x ∈ b64Encode bs, x < 128 := by
  generalize hl : bs.length = L
  induction L using Nat.strong_induction_on generalizing bs with
  | _ L ih =>
    match bs with
    | [] => intro x hx; rw [b64Encode] at hx; exact absurd hx (List.not_mem_nil x)
    | [a] =>
      intro x hx
      rw [b64Encode] at hx
      simp only [List.mem_cons, List.not_mem_nil, or_false] at hx
      rcases hx with h | h | h | h <;>
        first
          | (exact h ▸ b64CharOf_lt _)
          | omega
    | [a, b] =>
      intro x hx
      rw [b64Encode] at hx
      simp only [List.mem_cons, List.not_mem_nil, or_false] at hx
      rcases hx with h | h | h | h <;>
        first
          | (exact h ▸ b64CharOf_lt _)
          | omega
    | a :: b :: c :: rest =>
      intro x hx
      rw [b64Encode] at hx
      simp only [List.mem_cons] at hx
      rcases hx with h | h | h | h | h
      · exact h ▸ b64CharOf_lt _
      · exact h ▸ b64CharOf_lt _
      · exact h ▸ b64CharOf_lt _
      · exact h ▸ b64CharOf_lt _
      · exact ih rest.length (by subst hl; simp; omega) rest rfl x h

theorem b64ValueOf_charOf (i : Nat) (h : i < 64) :
    b64ValueOf (b64CharOf i) = some i := by
  interval_cases i <;> rfl

theorem b64DecodeLoop_nil (group out : List Nat) :
    b64DecodeLoop [] group out = if group.length = 0 then some out else none := by
  rw [b64DecodeLoop]

theorem b64DecodeLoop_cons_val (b : Nat) (rest group out : List Nat) (v : Nat)
    (hv : b64ValueOf b = some v) :
    b64DecodeLoop (b :: rest) group out =
      if group.length = 3 then
        b64DecodeLoop rest [] (out ++ bytesOfQuad (group ++ [v]))
      else b64DecodeLoop rest (group ++ [v]) out := by
  rw [b64DecodeLoop, hv]

theorem b64DecodeLoop_cons_pad (rest group out : List Nat) :
    b64DecodeLoop (61 :: rest) group out =
      if 2 ≤ group.length then some (out ++ bytesOfPartial group)
      else b64DecodeLoop rest group out := by
  rw [b64DecodeLoop]
  have hv : b64ValueOf 61 = none := rfl
  rw [hv, if_pos rfl]

theorem b64DecodeLoop_encode (bs : List Nat) (h : ∀ b ∈ bs, b < 256) :
    ∀ out, b64DecodeLoop (b64Encode bs) [] out = some (out ++ bs) := by
  generalize hl : bs.length = L
  induction L using Nat.strong_induction_on generalizing bs with
  | _ L ih =>
    match bs with
    | [] => intro out; rw [b64Encode, b64DecodeLoop_nil]; simp
    | [a] =>
      intro out
      have ha : a < 256 := h a (by simp)
      rw [b64Encode,
        b64DecodeLoop_cons_val _ _ _ _ _ (b64ValueOf_charOf (a / 4) (by omega)),
        if_neg (by simp),
        b64DecodeLoop_cons_val _ _ _ _ _ (b64ValueOf_charOf (a % 4 * 16) (by omega)),
        if_neg (by simp), b64DecodeLoop_cons_pad, if_pos (by simp)]
      have hb1 : bytesOfPartial ([] ++ [a / 4] ++ [a % 4 * 16]) = [a] := by
        rw [show ([] ++ [a / 4] ++ [a % 4 * 16] : List Nat) = [a / 4, a % 4 * 16] by rfl,
          bytesOfPartial]
        have : a / 4 * 4 + a % 4 * 16 / 16 = a := by omega
        rw [this]
      rw [hb1]
    | [a, b] =>
      intro out
      have ha : a < 256 := h a (by simp)
      have hb : b < 256 := h b (by simp)
      rw [b64Encode,
        b64DecodeLoop_cons_val _ _ _ _ _ (b64ValueOf_charOf (a / 4) (by omega)),
        if_neg (by simp),
        b64DecodeLoop_cons_val _ _ _ _ _
          (b64ValueOf_charOf (a % 4 * 16 + b / 16) (by omega)),
        if_neg (by simp),
        b64DecodeLoop_cons_val _ _ _ _ _ (b64ValueOf_charOf (b % 16 * 4) (by omega)),
        if_neg (by simp), b64DecodeLoop_cons_pad, if_pos (by simp)]
      have hb1 : bytesOfPartial ([] ++ [a / 4] ++ [a % 4 * 16 + b / 16] ++ [b % 16 * 4]) =
          [a, b] := by
        rw [show ([] ++ [a / 4] ++ [a % 4 * 16 + b / 16] ++ [b % 16 * 4] : List Nat) =
          [a / 4, a % 4 * 16 + b / 16, b % 16 * 4] by rfl, bytesOfPartial]
        have h1 : a / 4 * 4 + (a % 4 * 16 + b / 16) / 16 = a := by omega
        have h2 : (a % 4 * 16 + b / 16) % 16 * 16 + b % 16 * 4 / 4 = b := by omega
        rw [h1, h2]
      rw [hb1]
    | a :: b :: c :: rest =>
      intro out
      have ha : a < 256 := h a (by simp)
      have hb : b < 256 := h b (by simp)
      have hc : c < 256 := h c (by simp)
      rw [b64Encode,
        b64DecodeLoop_cons_val _ _ _ _ _ (b64ValueOf_charOf (a / 4) (by omega)),
        if_neg (by simp),
        b64DecodeLoop_cons_val _ _ _ _ _
          (b64ValueOf_charOf (a % 4 * 16 + b / 16) (by omega)),
        if_neg (by simp),
        b64DecodeLoop_cons_val _ _ _ _ _
          (b64ValueOf_charOf (b % 16 * 4 + c / 64) (by omega)),
        if_neg (by simp),
        b64DecodeLoop_cons_val _ _ _ _ _ (b64ValueOf_charOf (c % 64) (by omega)),
        if_pos (by simp)]
      have hq : bytesOfQuad ([] ++ [a / 4] ++ [a % 4 * 16 + b / 16] ++
          [b % 16 * 4 + c / 64] ++ [c % 64]) = [a, b, c] := by
        rw [show ([] ++ [a / 4] ++ [a % 4 * 16 + b / 16] ++ [b % 16 * 4 + c / 64] ++
          [c % 64] : List Nat) =
          [a / 4, a % 4 * 16 + b / 16, b % 16 * 4 + c / 64, c % 64] by rfl, bytesOfQuad]
        have h1 : a / 4 * 4 + (a % 4 * 16 + b / 16) / 16 = a := by omega
        have h2 : (a % 4 * 16 + b / 16) % 16 * 16 + (b % 16 * 4 + c / 64) / 4 = b := by
          omega
        have h3 : (b % 16 * 4 + c / 64) % 4 * 64 + c % 64 = c := by omega
        rw [h1, h2, h3]
      rw [hq]
      rw [ih rest.length (by subst hl; simp; omega) rest
        (fun x hx => h x (by simp [hx])) rfl (out ++ [a, b, c])]
      simp

theorem b64Decode_encode (bs : List Nat) (h : ∀ b ∈ bs, b < 256) :
    b64Decode (b64Encode bs) = some bs := by
  rw [b64Decode, b64DecodeLoop_encode bs h []]
  rfl

theorem jsonEscapeCp_plain (c : Nat) (h : plainCp c = true) : jsonEscapeCp c = [c] := by
  rw [plainCp] at h
  simp only [Bool.and_eq_true, decide_eq_true_eq, bne_iff_ne, ne_eq] at h
  obtain ⟨⟨⟨h1, h2⟩, h3⟩, h4⟩ := h
  rw [jsonEscapeCp, if_neg h3, if_neg h4, if_neg (by omega), if_neg (by omega),
    if_neg (by omega), if_neg (by omega), if_neg (by omega), if_neg (by omega),
    if_pos (by omega)]

theorem jsonDumpStr_plain (s : List Nat) (h : ∀ c ∈ s, plainCp c = true) :
    jsonDumpStr s = 34 :: (s ++ [34]) := by
  rw [jsonDumpStr]
  have : (s.map jsonEscapeCp).flatten = s := by
    induction s with
    | nil => rfl
    | cons c rest ih =>
      rw [List.map_cons, List.flatten_cons,
        jsonEscapeCp_plain c (h c (List.mem_cons_self c rest)),
        ih (fun d hd => h d (List.mem_cons_of_mem c hd))]
      rfl
  rw [this]
  simp

theorem parseStringBody_plain (s : List Nat) (h : ∀ c ∈ s, plainCp c = true)
    (r : List Nat) : parseStringBody (s ++ 34 :: r) = some (s, r) := by
  induction s with
  | nil =>
    rw [List.nil_append, parseStringBody, if_pos rfl]
  | cons c rest ih =>
    have hc := h c (List.mem_cons_self c rest)
    rw [plainCp] at hc
    simp only [Bool.and_eq_true, decide_eq_true_eq, bne_iff_ne, ne_eq] at hc
    obtain ⟨⟨⟨h1, h2⟩, h3⟩, h4⟩ := hc
    rw [List.cons_append, parseStringBody, if_neg h3, if_neg h4,
      if_neg (by omega), ih (fun d hd => h d (List.mem_cons_of_mem c hd))]
    rfl

theorem parseValue_strTok (fuel : Nat) (s r : List Nat)
    (h : ∀ c ∈ s, plainCp c = true) :
    parseValue (fuel + 1) (34 :: (s ++ 34 :: r)) = some (.jstr s, r) := by
  rw [parseValue, if_pos rfl, parseStringBody_plain s h r]
  rfl

theorem joinSep_nil (sep : List Nat) : joinSep sep [] = [] := rfl

theorem joinSep_single (sep x : List Nat) : joinSep sep [x] = x := rfl

theorem joinSep_cons2 (sep x y : List Nat) (t : List (List Nat)) :
    joinSep sep (x :: y :: t) = x ++ sep ++ joinSep sep (y :: t) := rfl

theorem joinSep_dump_cons2 (sep w : List Nat) (ws : List (List Nat))
    (h : ws ≠ []) :
    joinSep sep (List.map jsonDumpStr (w :: ws)) =
      jsonDumpStr w ++ sep ++ joinSep sep (List.map jsonDumpStr ws) := by
  match ws with
  | [] => exact absurd rfl h
  | z :: t =>
    rw [List.map_cons, List.map_cons, joinSep_cons2]

theorem length_joinSep_words (W : List (List Nat)) :
    W.length ≤ (joinSep [44, 32] (W.map jsonDumpStr)).length := by
  match W with
  | [] => simp [joinSep_nil]
  | [w] =>
    rw [List.map_cons, List.map_nil, joinSep_single, jsonDumpStr]
    simp
  | w :: y :: t =>
    rw [joinSep_dump_cons2 _ _ _ (by simp)]
    have ih := length_joinSep_words (y :: t)
    rw [jsonDumpStr]
    simp only [List.length_append, List.length_cons]
    simp only [List.length_cons] at ih
    omega

theorem joinSep_words_cons (y : List Nat) (t : List (List Nat)) :
    ∃ X, joinSep [44, 32] ((y :: t).map jsonDumpStr) = 34 :: X := by
  match t with
  | [] =>
    refine ⟨(y.map jsonEscapeCp).flatten ++ [34], ?_⟩
    rw [List.map_cons, List.map_nil, joinSep_single, jsonDumpStr]
    simp
  | z :: t' =>
    refine ⟨(y.map jsonEscapeCp).flatten ++ [34] ++ [44, 32] ++
      joinSep [44, 32] ((z :: t').map jsonDumpStr), ?_⟩
    rw [joinSep_dump_cons2 _ _ _ (by simp), jsonDumpStr]
    simp

theorem parseElements_dumps (W : List (List Nat))
    (hW : ∀ w ∈ W, ∀ c ∈ w, plainCp c = true) :
    ∀ (fuel : Nat) (acc : List JVal) (r : List Nat), W ≠ [] → W.length ≤ fuel →
    parseElements (fuel + 1) (joinSep [44, 32] (W.map jsonDumpStr) ++ 93 :: r) acc =
      some (.jarr (acc ++ W.map JVal.jstr), r) := by
  induction W with
  | nil => intro _ _ _ hne _; exact absurd rfl hne
  | cons w W' ih =>
    intro fuel acc r _ hfuel
    obtain ⟨f, rfl⟩ : ∃ f, fuel = f + 1 := ⟨fuel - 1, by simp at hfuel; omega⟩
    match W' with
    | [] =>
      rw [List.map_cons, List.map_nil, joinSep_single,
        jsonDumpStr_plain w (hW w (List.mem_cons_self w []))]
      have hsh : ((34 : Nat) :: (w ++ [34])) ++ 93 :: r = 34 :: (w ++ 34 :: (93 :: r)) := by
        simp
      rw [hsh, parseElements,
        parseValue_strTok f w (93 :: r) (hW w (List.mem_cons_self w []))]
      rfl
    | y :: t =>
      rw [joinSep_dump_cons2 _ _ _ (by simp),
        jsonDumpStr_plain w (hW w (List.mem_cons_self w (y :: t)))]
      have hsh : (((34 : Nat) :: (w ++ [34])) ++ [44, 32] ++
          joinSep [44, 32] ((y :: t).map jsonDumpStr)) ++ 93 :: r =
          34 :: (w ++ 34 :: (44 :: 32 ::
            (joinSep [44, 32] ((y :: t).map jsonDumpStr) ++ 93 :: r))) := by
        simp
      rw [hsh, parseElements,
        parseValue_strTok f w _ (hW w (List.mem_cons_self w (y :: t)))]
      have hskip : skipWs (44 :: 32 ::
          (joinSep [44, 32] ((y :: t).map jsonDumpStr) ++ 93 :: r)) =
          44 :: 32 :: (joinSep [44, 32] ((y :: t).map jsonDumpStr) ++ 93 :: r) := rfl
      obtain ⟨X, hX⟩ := joinSep_words_cons y t
      have hskip2 : skipWs (32 ::
          (joinSep [44, 32] ((y :: t).map jsonDumpStr) ++ 93 :: r)) =
          joinSep [44, 32] ((y :: t).map jsonDumpStr) ++ 93 :: r := by
        rw [hX]
        rfl
      simp only [hskip, hskip2]
      rw [ih (fun v hv c hc => hW v (List.mem_cons_of_mem w hv) c hc) f
        (acc ++ [JVal.jstr w]) r (by simp) (by simp at hfuel ⊢; omega)]
      simp

theorem skipWs_32 (s : List Nat) : skipWs (32 :: s) = skipWs s := rfl

theorem skipWs_34 (s : List Nat) : skipWs (34 :: s) = 34 :: s := rfl

theorem skipWs_44 (s : List Nat) : skipWs (44 :: s) = 44 :: s := rfl

theorem skipWs_58 (s : List Nat) : skipWs (58 :: s) = 58 :: s := rfl

theorem skipWs_91 (s : List Nat) : skipWs (91 :: s) = 91 :: s := rfl

theorem skipWs_93 (s : List Nat) : skipWs (93 :: s) = 93 :: s := rfl

theorem skipWs_123 (s : List Nat) : skipWs (123 :: s) = 123 :: s := rfl

theorem skipWs_125 (s : List Nat) : skipWs (125 :: s) = 125 :: s := rfl

theorem parseValue_obj (fuel : Nat) (s : List Nat) :
    parseValue (fuel + 1) (123 :: 34 :: s) = parseMembers fuel (34 :: s) [] := by
  rw [parseValue, if_neg (by omega), if_pos rfl, skipWs_34]

theorem parseMembers_strVal_comma (g : Nat) (k v s : List Nat)
    (acc : List (List Nat × JVal))
    (hk : ∀ c ∈ k, plainCp c = true) (hv : ∀ c ∈ v, plainCp c = true) :
    parseMembers (g + 1 + 1)
      (34 :: (k ++ 34 :: 58 :: 32 :: 34 :: (v ++ 34 :: 44 :: 32 :: 34 :: s))) acc =
      parseMembers (g + 1) (34 :: s) (acc ++ [(k, .jstr v)]) := by
  rw [parseMembers, parseStringBody_plain k hk]
  simp only [skipWs_58, skipWs_32, skipWs_34, skipWs_44,
    parseValue_strTok g v _ hv]

theorem parseMembers_arrVal_close (g : Nat) (k : List Nat) (W : List (List Nat))
    (s : List Nat) (acc : List (List Nat × JVal))
    (hk : ∀ c ∈ k, plainCp c = true)
    (hW : ∀ w ∈ W, ∀ c ∈ w, plainCp c = true)
    (hfuel : W.length + 1 ≤ g) :
    parseMembers (g + 1 + 1)
      (34 :: (k ++ 34 :: 58 :: 32 :: 91 ::
        (joinSep [44, 32] (W.map jsonDumpStr) ++ 93 :: 125 :: s))) acc =
      some (.jobj (acc ++ [(k, .jarr (W.map JVal.jstr))]), s) := by
  rw [parseMembers, parseStringBody_plain k hk]
  simp only [skipWs_58, skipWs_32, skipWs_91]
  rw [parseValue, if_neg (by omega), if_neg (by omega), if_pos rfl]
  match W with
  | [] =>
    rw [List.map_nil, joinSep_nil, List.nil_append]
    simp only [skipWs_93, skipWs_125]
    simp
  | y :: t =>
    obtain ⟨X, hX⟩ := joinSep_words_cons y t
    rw [hX, List.cons_append]
    simp only [skipWs_34]
    rw [← List.cons_append, ← hX]
    obtain ⟨g2, rfl⟩ : ∃ g2, g = g2 + 1 := ⟨g - 1, by simp at hfuel; omega⟩
    rw [parseElements_dumps (y :: t) hW g2 [] (125 :: s) (by simp)
      (by simp at hfuel ⊢; omega)]
    simp only [skipWs_125]
    simp

theorem jsonDumpsGame_plain (P : List Nat) (W : List (List Nat))
    (hP : ∀ c ∈ P, plainCp c = true) :
    jsonDumpsGame P W =
      123 :: 34 :: (LETTERS_KEY ++ 34 :: 58 :: 32 :: 34 ::
        (P ++ 34 :: 44 :: 32 :: 34 ::
          (WORDS_KEY ++ 34 :: 58 :: 32 :: 91 ::
            (joinSep [44, 32] (W.map jsonDumpStr) ++ 93 :: 125 :: [])))) := by
  rw [jsonDumpsGame, jsonDumpStr_plain [108, 101, 116, 116, 101, 114, 115] (by decide),
    jsonDumpStr_plain P hP,
    jsonDumpStr_plain [119, 111, 114, 100, 115] (by decide)]
  simp [LETTERS_KEY, WORDS_KEY]

theorem jsonLoads_dumpsGame (P : List Nat) (W : List (List Nat))
    (hP : ∀ c ∈ P, plainCp c = true)
    (hW : ∀ w ∈ W, ∀ c ∈ w, plainCp c = true) :
    jsonLoads (jsonDumpsGame P W) =
      some (.jobj [(LETTERS_KEY, .jstr P), (WORDS_KEY, .jarr (W.map JVal.jstr))]) := by
  rw [jsonLoads, jsonDumpsGame_plain P W hP, skipWs_123]
  rw [show ∀ s : List Nat, (123 :: 34 :: s).length + 1 = s.length + 1 + 1 + 1 from
    fun s => by simp, parseValue_obj]
  have hlen : (LETTERS_KEY ++ 34 :: 58 :: 32 :: 34 ::
      (P ++ 34 :: 44 :: 32 :: 34 ::
        (WORDS_KEY ++ 34 :: 58 :: 32 :: 91 ::
          (joinSep [44, 32] (W.map jsonDumpStr) ++ 93 :: 125 :: [])))).length =
      (P.length + (joinSep [44, 32] (W.map jsonDumpStr)).length + 24) + 1 + 1 := by
    simp [LETTERS_KEY, WORDS_KEY]
    omega
  rw [hlen, parseMembers_strVal_comma _ LETTERS_KEY P _ [] (by decide) hP]
  have hJ := length_joinSep_words W
  rw [parseMembers_arrVal_close _ WORDS_KEY W [] _ (by decide) hW (by omega)]
  rfl

theorem mem_joinSep_words_lt (W : List (List Nat))
    (hW : ∀ w ∈ W, ∀ c ∈ w, plainCp c = true) :
    ∀ c ∈ joinSep [44, 32] (W.map jsonDumpStr), c < 128 := by
  match W with
  | [] => intro c hc; rw [List.map_nil, joinSep_nil] at hc; simp at hc
  | [w] =>
    intro c hc
    rw [List.map_cons, List.map_nil, joinSep_single,
      jsonDumpStr_plain w (hW w (by simp))] at hc
    rcases List.mem_cons.mp hc with rfl | hc2
    · omega
    · rcases List.mem_append.mp hc2 with hcw | hc3
      · have := hW w (by simp) c hcw
        rw [plainCp] at this
        simp at this
        omega
      · simp at hc3
        omega
  | w :: y :: t =>
    intro c hc
    rw [joinSep_dump_cons2 _ _ _ (by simp),
      jsonDumpStr_plain w (hW w (by simp))] at hc
    rcases List.mem_append.mp hc with hc1 | hc2
    · rcases List.mem_append.mp hc1 with hc3 | hc4
      · rcases List.mem_cons.mp hc3 with rfl | hc5
        · omega
        · rcases List.mem_append.mp hc5 with hcw | hc6
          · have := hW w (by simp) c hcw
            rw [plainCp] at this
            simp at this
            omega
          · simp at hc6
            omega
      · simp at hc4
        rcases hc4 with rfl | rfl <;> omega
    · exact mem_joinSep_words_lt (y :: t) (fun v hv => hW v (by simp [hv])) c hc2

theorem mem_dumpsGame_lt (P : List Nat) (W : List (List Nat))
    (hP : ∀ c ∈ P, plainCp c = true)
    (hW : ∀ w ∈ W, ∀ c ∈ w, plainCp c = true) :
    ∀ c ∈ jsonDumpsGame P W, c < 128 := by
  rw [jsonDumpsGame_plain P W hP]
  refine List.forall_mem_cons.mpr ⟨by omega, ?_⟩
  refine List.forall_mem_cons.mpr ⟨by omega, ?_⟩
  refine List.forall_mem_append.mpr ⟨by decide, ?_⟩
  refine List.forall_mem_cons.mpr ⟨by omega, ?_⟩
  refine List.forall_mem_cons.mpr ⟨by omega, ?_⟩
  refine List.forall_mem_cons.mpr ⟨by omega, ?_⟩
  refine List.forall_mem_cons.mpr ⟨by omega, ?_⟩
  refine List.forall_mem_append.mpr ⟨?_, ?_⟩
  · intro c hc
    have := hP c hc
    rw [plainCp] at this
    simp at this
    omega
  refine List.forall_mem_cons.mpr ⟨by omega, ?_⟩
  refine List.forall_mem_cons.mpr ⟨by omega, ?_⟩
  refine List.forall_mem_cons.mpr ⟨by omega, ?_⟩
  refine List.forall_mem_cons.mpr ⟨by omega, ?_⟩
  refine List.forall_mem_append.mpr ⟨by decide, ?_⟩
  refine List.forall_mem_cons.mpr ⟨by omega, ?_⟩
  refine List.forall_mem_cons.mpr ⟨by omega, ?_⟩
  refine List.forall_mem_cons.mpr ⟨by omega, ?_⟩
  refine List.forall_mem_cons.mpr ⟨by omega, ?_⟩
  refine List.forall_mem_append.mpr ⟨mem_joinSep_words_lt W hW, ?_⟩
  decide

theorem jsonGet_letters (P : List Nat) (wv : JVal) :
    jsonGet (.jobj [(LETTERS_KEY, .jstr P), (WORDS_KEY, wv)]) LETTERS_KEY =
      .ok (.jstr P) := by
  rw [jsonGet, lookupLast]
  simp [LETTERS_KEY, WORDS_KEY]

theorem jsonGet_words (lv wv : JVal) :
    jsonGet (.jobj [(LETTERS_KEY, lv), (WORDS_KEY, wv)]) WORDS_KEY =
      .ok wv := by
  rw [jsonGet, lookupLast]
  simp [LETTERS_KEY, WORDS_KEY]

theorem foldl_addLetterS (items : List (List Nat)) :
    ∀ gs : GameStateS, items.foldl addLetterS gs =
      ⟨gs.pool ++ items.map pyLowerStr, gs.words⟩ := by
  induction items with
  | nil => intro gs; simp
  | cons i rest ih =>
    intro gs
    rw [List.foldl_cons, ih (addLetterS gs i), addLetterS]
    simp

theorem addLettersS_str (gs : GameStateS) (s : List Nat) :
    addLettersS gs (.jstr s) =
      .ok ⟨gs.pool ++ s.map (fun c => [pyLowerCp c]), gs.words⟩ := by
  rw [addLettersS]
  have h1 : iterLettersS (.jstr s) = .ok (s.map (fun c => [c])) := rfl
  rw [h1]
  have h2 : (s.map (fun c => [c])).map pyLowerStr = s.map (fun c => [pyLowerCp c]) := by
    rw [List.map_map]
    rfl
  rw [show Except.map (fun items => List.foldl addLetterS gs items)
      (Except.ok (s.map (fun c => [c])) : Except PyErr (List (List Nat))) =
      Except.ok (List.foldl addLetterS gs (s.map (fun c => [c]))) from rfl,
    foldl_addLetterS, h2]

theorem iterWordsS_strArr (W : List (List Nat)) :
    iterWordsS (.jarr (W.map .jstr)) = .ok W := by
  induction W with
  | nil => rfl
  | cons w rest ih =>
    rw [iterWordsS] at ih ⊢
    rw [List.map_cons, List.mapM_cons]
    rw [show (match JVal.jstr w with
      | JVal.jstr t => (Except.ok t : Except PyErr (List Nat))
      | x => Except.error PyErr.typeError) = Except.ok w from rfl]
    rw [ih]
    rfl

theorem wordsFold_ok (items : List (List Nat)) :
    ∀ gs : GameStateS, (∀ w ∈ items, wordBitsOkS w = true) →
    items.foldlM (fun g w =>
      if wordBitsOkS w then Except.ok { g with words := g.words ++ [w] }
      else .error PyErr.keyError) gs = .ok ⟨gs.pool, gs.words ++ items⟩ := by
  induction items with
  | nil =>
    intro gs _
    rw [List.foldlM_nil, List.append_nil]
    rfl
  | cons w rest ih =>
    intro gs h
    rw [List.foldlM_cons, if_pos (h w (by simp))]
    rw [show ((Except.ok { gs with words := gs.words ++ [w] } :
        Except PyErr GameStateS) >>= fun g => rest.foldlM (fun g w =>
          if wordBitsOkS w then Except.ok { g with words := g.words ++ [w] }
          else .error PyErr.keyError) g) =
      rest.foldlM (fun g w =>
          if wordBitsOkS w then Except.ok { g with words := g.words ++ [w] }
          else .error PyErr.keyError) { gs with words := gs.words ++ [w] } from rfl]
    rw [ih { gs with words := gs.words ++ [w] } (fun v hv => h v (by simp [hv]))]
    simp

theorem addWordsS_strArr (gs : GameStateS) (W : List (List Nat))
    (h : ∀ w ∈ W, wordBitsOkS w = true) :
    addWordsS gs (.jarr (W.map .jstr)) = .ok ⟨gs.pool, gs.words ++ W⟩ := by
  rw [addWordsS, iterWordsS_strArr, except_bind_ok, wordsFold_ok W gs h]

theorem addLettersS_ok_shape (g : GameStateS) (v : JVal) (g1 : GameStateS)
    (h : addLettersS g v = .ok g1) :
    ∃ items, iterLettersS v = .ok items ∧
      g1 = ⟨g.pool ++ items.map pyLowerStr, g.words⟩ := by
  rw [addLettersS] at h
  rcases hit : iterLettersS v with e | items
  · rw [hit] at h
    exact Except.noConfusion h
  · rw [hit] at h
    refine ⟨items, rfl, ?_⟩
    rw [show Except.map (fun items => List.foldl addLetterS g items)
        (Except.ok items : Except PyErr (List (List Nat))) =
        Except.ok (items.foldl addLetterS g) from rfl,
      foldl_addLetterS] at h
    exact (Except.ok.inj h).symm

theorem addLettersS_ok_of (g : GameStateS) (v : JVal) (items : List (List Nat))
    (hit : iterLettersS v = .ok items) :
    addLettersS g v = .ok ⟨g.pool ++ items.map pyLowerStr, g.words⟩ := by
  rw [addLettersS, hit,
    show Except.map (fun items => List.foldl addLetterS g items)
      (Except.ok items : Except PyErr (List (List Nat))) =
      Except.ok (items.foldl addLetterS g) from rfl,
    foldl_addLetterS]

theorem wordsFold_ok_inv (items : List (List Nat)) :
    ∀ g g2 : GameStateS,
    items.foldlM (fun g w =>
      if wordBitsOkS w then Except.ok { g with words := g.words ++ [w] }
      else .error PyErr.keyError) g = .ok g2 →
    (∀ w ∈ items, wordBitsOkS w = true) ∧ g2 = ⟨g.pool, g.words ++ items⟩ := by
  induction items with
  | nil =>
    intro g g2 h
    rw [List.foldlM_nil] at h
    refine ⟨by simp, ?_⟩
    rw [List.append_nil]
    have h' : g = g2 := Except.ok.inj h
    rw [← h']
  | cons w rest ih =>
    intro g g2 h
    rw [List.foldlM_cons] at h
    by_cases hw : wordBitsOkS w = true
    · rw [if_pos hw] at h
      rw [show ((Except.ok { g with words := g.words ++ [w] } :
          Except PyErr GameStateS) >>= fun g => rest.foldlM (fun g w =>
            if wordBitsOkS w then Except.ok { g with words := g.words ++ [w] }
            else .error PyErr.keyError) g) =
        rest.foldlM (fun g w =>
            if wordBitsOkS w then Except.ok { g with words := g.words ++ [w] }
            else .error PyErr.keyError) { g with words := g.words ++ [w] } from rfl] at h
      obtain ⟨hall, hshape⟩ := ih _ _ h
      refine ⟨?_, ?_⟩
      · intro v hv
        rcases List.mem_cons.mp hv with rfl | hv2
        · exact hw
        · exact hall v hv2
      · rw [hshape]
        simp
    · rw [if_neg hw] at h
      rw [show ((Except.error PyErr.keyError :
          Except PyErr GameStateS) >>= fun g => rest.foldlM (fun g w =>
            if wordBitsOkS w then Except.ok { g with words := g.words ++ [w] }
            else .error PyErr.keyError) g) =
        Except.error PyErr.keyError from rfl] at h
      exact Except.noConfusion h

theorem addWordsS_ok_shape (g : GameStateS) (v : JVal) (g2 : GameStateS)
    (h : addWordsS g v = .ok g2) :
    ∃ items, iterWordsS v = .ok items ∧ (∀ w ∈ items, wordBitsOkS w = true) ∧
      g2 = ⟨g.pool, g.words ++ items⟩ := by
  rw [addWordsS] at h
  rcases hit : iterWordsS v with e | items
  · rw [hit, except_bind_error] at h
    exact Except.noConfusion h
  · rw [hit, except_bind_ok] at h
    obtain ⟨hall, hshape⟩ := wordsFold_ok_inv items g g2 h
    exact ⟨items, rfl, hall, hshape⟩

theorem addWordsS_ok_of (g : GameStateS) (v : JVal) (items : List (List Nat))
    (hit : iterWordsS v = .ok items) (hall : ∀ w ∈ items, wordBitsOkS w = true) :
    addWordsS g v = .ok ⟨g.pool, g.words ++ items⟩ := by
  rw [addWordsS, hit, except_bind_ok]
  exact wordsFold_ok items g hall

theorem deserialize_ok_inv (g g' : GameStateS) (s : List Nat)
    (h : deserialize g s = .ok g') : deserializeRaw g s = .ok g' := by
  rw [deserialize] at h
  rcases hr : deserializeRaw g s with e | g''
  · rw [hr] at h
    cases e <;> simp at h
  · rw [hr] at h
    exact h

theorem deserializeRaw_ok_inv (g g' : GameStateS) (s : List Nat)
    (h : deserializeRaw g s = .ok g') :
    ∃ bytes dec txt data lv wv items witems,
      utf8Encode s = some bytes ∧ b64Decode bytes = some dec ∧
      utf8Decode dec = some txt ∧ jsonLoads txt = some data ∧
      jsonGet data LETTERS_KEY = .ok lv ∧ iterLettersS lv = .ok items ∧
      jsonGet data WORDS_KEY = .ok wv ∧ iterWordsS wv = .ok witems ∧
      (∀ w ∈ witems, wordBitsOkS w = true) ∧
      g' = ⟨g.pool ++ items.map pyLowerStr, g.words ++ witems⟩ := by
  rw [deserializeRaw] at h
  rcases he : utf8Encode s with _ | bytes
  · rw [he] at h
    rw [except_bind_error] at h
    exact Except.noConfusion h
  rw [he] at h
  simp only [except_bind_ok] at h
  rcases hb : b64Decode bytes with _ | dec
  · rw [hb] at h
    rw [except_bind_error] at h
    exact Except.noConfusion h
  rw [hb] at h
  simp only [except_bind_ok] at h
  rcases hu : utf8Decode dec with _ | txt
  · rw [hu] at h
    rw [except_bind_error] at h
    exact Except.noConfusion h
  rw [hu] at h
  simp only [except_bind_ok] at h
  rcases hj : jsonLoads txt with _ | data
  · rw [hj] at h
    rw [except_bind_error] at h
    exact Except.noConfusion h
  rw [hj] at h
  simp only [except_bind_ok] at h
  rcases hl : jsonGet data LETTERS_KEY with e | lv
  · rw [hl, except_bind_error] at h
    exact Except.noConfusion h
  rw [hl, except_bind_ok] at h
  rcases hal : addLettersS g lv with e | gs1
  · rw [hal, except_bind_error] at h
    exact Except.noConfusion h
  rw [hal, except_bind_ok] at h
  rcases hw : jsonGet data WORDS_KEY with e | wv
  · rw [hw, except_bind_error] at h
    exact Except.noConfusion h
  rw [hw, except_bind_ok] at h
  rcases haw : addWordsS gs1 wv with e | gs2
  · rw [haw, except_bind_error] at h
    exact Except.noConfusion h
  rw [haw, except_bind_ok] at h
  have hg2 : gs2 = g' := Except.ok.inj h
  obtain ⟨items, hil, hsh1⟩ := addLettersS_ok_shape g lv gs1 hal
  obtain ⟨witems, hiw, hok, hsh2⟩ := addWordsS_ok_shape gs1 wv gs2 haw
  refine ⟨bytes, dec, txt, data, lv, wv, items, witems,
    rfl, hb, hu, hj, hl, hil, hw, hiw, hok, ?_⟩
  rw [← hg2, hsh2, hsh1]

theorem deserialize_ok_of (g : GameStateS) (s bytes dec txt : List Nat)
    (data lv wv : JVal) (items witems : List (List Nat))
    (he : utf8Encode s = some bytes) (hb : b64Decode bytes = some dec)
    (hu : utf8Decode dec = some txt) (hj : jsonLoads txt = some data)
    (hl : jsonGet data LETTERS_KEY = .ok lv) (hil : iterLettersS lv = .ok items)
    (hw : jsonGet data WORDS_KEY = .ok wv) (hiw : iterWordsS wv = .ok witems)
    (hok : ∀ w ∈ witems, wordBitsOkS w = true) :
    deserialize g s = .ok ⟨g.pool ++ items.map pyLowerStr, g.words ++ witems⟩ := by
  have hal := addLettersS_ok_of g lv items hil
  have haw := addWordsS_ok_of ⟨g.pool ++ items.map pyLowerStr, g.words⟩ wv witems hiw hok
  rw [deserialize, deserializeRaw]
  rw [he]
  simp only [except_bind_ok]
  rw [hb]
  simp only [except_bind_ok]
  rw [hu]
  simp only [except_bind_ok]
  rw [hj]
  simp only [except_bind_ok]
  rw [hl]
  simp only [except_bind_ok]
  rw [hal]
  simp only [except_bind_ok]
  rw [hw]
  simp only [except_bind_ok]
  rw [haw]
  simp only [except_bind_ok]
  rfl

end SerializationLemmas

section SerializationClaims

/-- C5, counterexample to the claim as stated: the pool entry `"1"` is not
alphabetic, so the claim predicts it is silently dropped by the round trip;
in fact `deserialize` applies no alphabetic filter anywhere, and the `1`
comes back in the pool. -/
theorem C5_serialize_roundtrip_counterexample :
    deserialize ⟨[], []⟩ (serialize ⟨[[49]], []⟩) = .ok ⟨[[49]], []⟩ ∧
    ([[49]] : List (List Nat)) ≠ [] := by
  constructor
  · rfl
  · simp

/-- C5 (amended): for a game state whose pool strings hold only printable
ASCII characters other than the quote and the backslash, and whose existing
words hold only `a`..`z`, deserializing `serialize`'s output into a fresh
state yields as pool the concatenation of the original pool's characters,
one single-character string each, ASCII-lower-cased and NOT filtered to
alphabetic characters, and the existing words verbatim. -/
theorem C5_serialize_roundtrip_amended (gs : GameStateS)
    (hpool : ∀ s ∈ gs.pool, ∀ c ∈ s, plainCp c = true)
    (hwords : ∀ w ∈ gs.words, ∀ c ∈ w, 97 ≤ c ∧ c ≤ 122) :
    deserialize ⟨[], []⟩ (serialize gs) =
      .ok ⟨gs.pool.flatten.map (fun c => [pyLowerCp c]), gs.words⟩ := by
  have hP : ∀ c ∈ gs.pool.flatten, plainCp c = true := by
    intro c hc
    rw [List.mem_flatten] at hc
    obtain ⟨s, hs, hcs⟩ := hc
    exact hpool s hs c hcs
  have hW : ∀ w ∈ gs.words, ∀ c ∈ w, plainCp c = true := by
    intro w hw c hc
    have := hwords w hw c hc
    rw [plainCp]
    simp only [Bool.and_eq_true, decide_eq_true_eq, bne_iff_ne, ne_eq]
    omega
  have hok : ∀ w ∈ gs.words, wordBitsOkS w = true := by
    intro w hw
    rw [wordBitsOkS, List.all_eq_true]
    intro c hc
    have := hwords w hw c hc
    simp only [Bool.and_eq_true, decide_eq_true_eq]
    omega
  have hlt := mem_dumpsGame_lt gs.pool.flatten gs.words hP hW
  have hser : serialize gs = b64Encode (jsonDumpsGame gs.pool.flatten gs.words) := by
    rw [serialize, utf8Encode_ascii _ hlt]
    rfl
  rw [hser]
  have h256 : ∀ b ∈ jsonDumpsGame gs.pool.flatten gs.words, b < 256 := by
    intro b hb
    have := hlt b hb
    omega
  have := deserialize_ok_of ⟨[], []⟩
    (b64Encode (jsonDumpsGame gs.pool.flatten gs.words))
    (b64Encode (jsonDumpsGame gs.pool.flatten gs.words))
    (jsonDumpsGame gs.pool.flatten gs.words)
    (jsonDumpsGame gs.pool.flatten gs.words)
    (.jobj [(LETTERS_KEY, .jstr gs.pool.flatten),
      (WORDS_KEY, .jarr (gs.words.map JVal.jstr))])
    (.jstr gs.pool.flatten) (.jarr (gs.words.map JVal.jstr))
    (gs.pool.flatten.map (fun c => [c])) gs.words
    (utf8Encode_ascii _ (mem_b64Encode_lt _))
    (b64Decode_encode _ h256)
    (utf8Decode_ascii _ hlt)
    (jsonLoads_dumpsGame gs.pool.flatten gs.words hP hW)
    (jsonGet_letters _ _) rfl
    (jsonGet_words _ _) (iterWordsS_strArr gs.words) hok
  rw [this]
  have hmap : (gs.pool.flatten.map (fun c => [c])).map pyLowerStr =
      gs.pool.flatten.map (fun c => [pyLowerCp c]) := by
    rw [List.map_map]
    rfl
  rw [show (⟨[], []⟩ : GameStateS).pool = [] from rfl,
    show (⟨[], []⟩ : GameStateS).words = [] from rfl, hmap]
  simp

/-- Witness for the amended C5 at a concrete input: pool `["A", "b"]` and
existing word `"cat"` round-trip to pool `["a", "b"]` (lower-cased, not
filtered) and the same word list. -/
theorem C5_serialize_roundtrip_amended_witness :
    deserialize ⟨[], []⟩ (serialize ⟨[[65], [98]], [[99, 97, 116]]⟩) =
      .ok ⟨[[97], [98]], [[99, 97, 116]]⟩ := by
  have h := C5_serialize_roundtrip_amended ⟨[[65], [98]], [[99, 97, 116]]⟩
    (by decide) (by decide)
  rw [h]
  rfl

/-- C6, counterexample to the claim as stated: `"W10="` is valid base64 for
the valid JSON text `"[]"`, whose decoded value is a list; `data['letters']`
then raises `TypeError` (list indices must be integers), which the
`except (binascii.Error, json.JSONDecodeError, KeyError)` handler does not
catch — the caller sees a `TypeError`, not the uniform invalid-format
error, although the input "lacks the letters member". -/
theorem C6_uniform_failure_counterexample :
    deserialize ⟨[], []⟩ [87, 49, 48, 61] = .error .typeError ∧
    PyErr.typeError ≠ PyErr.invalidFormat := by
  constructor
  · rfl
  · simp

/-- C6 (amended): with the input a representable string (its UTF-8 encoding
exists), the failures collapse as follows: a base64 decoding failure, a
JSON parse failure, a decoded object missing the `letters` key, and a
decoded object whose `letters` value imports but whose `words` key is
missing all yield the uniform invalid-format `ValueError`; but base64-valid
input whose decoded bytes are not UTF-8 raises `UnicodeDecodeError`, which
escapes the handler, so not every failure is uniform. -/
theorem C6_uniform_failure_amended (gs : GameStateS) (s bytes : List Nat)
    (henc : utf8Encode s = some bytes) :
    (b64Decode bytes = none → deserialize gs s = .error .invalidFormat) ∧
    (∀ dec, b64Decode bytes = some dec → utf8Decode dec = none →
      deserialize gs s = .error .unicodeDecodeError) ∧
    (∀ dec txt, b64Decode bytes = some dec → utf8Decode dec = some txt →
      jsonLoads txt = none → deserialize gs s = .error .invalidFormat) ∧
    (∀ dec txt members, b64Decode bytes = some dec → utf8Decode dec = some txt →
      jsonLoads txt = some (.jobj members) →
      lookupLast members LETTERS_KEY = none →
      deserialize gs s = .error .invalidFormat) ∧
    (∀ dec txt members lv gs1, b64Decode bytes = some dec →
      utf8Decode dec = some txt →
      jsonLoads txt = some (.jobj members) →
      lookupLast members LETTERS_KEY = some lv → addLettersS gs lv = .ok gs1 →
      lookupLast members WORDS_KEY = none →
      deserialize gs s = .error .invalidFormat) := by
  refine ⟨?_, ?_, ?_, ?_, ?_⟩
  · intro hb
    rw [deserialize, deserializeRaw, henc]
    simp only [except_bind_ok]
    rw [hb]
    rfl
  · intro dec hb hu
    rw [deserialize, deserializeRaw, henc]
    simp only [except_bind_ok]
    rw [hb]
    simp only [except_bind_ok]
    rw [hu]
    rfl
  · intro dec txt hb hu hj
    rw [deserialize, deserializeRaw, henc]
    simp only [except_bind_ok]
    rw [hb]
    simp only [except_bind_ok]
    rw [hu]
    simp only [except_bind_ok]
    rw [hj]
    rfl
  · intro dec txt members hb hu hj hmiss
    rw [deserialize, deserializeRaw, henc]
    simp only [except_bind_ok]
    rw [hb]
    simp only [except_bind_ok]
    rw [hu]
    simp only [except_bind_ok]
    rw [hj]
    simp only [except_bind_ok]
    rw [show jsonGet (.jobj members) LETTERS_KEY =
        (match lookupLast members LETTERS_KEY with
         | some x => Except.ok x
         | none => Except.error PyErr.keyError) from rfl, hmiss]
    rfl
  · intro dec txt members lv gs1 hb hu hj hlv hal hmiss
    rw [deserialize, deserializeRaw, henc]
    simp only [except_bind_ok]
    rw [hb]
    simp only [except_bind_ok]
    rw [hu]
    simp only [except_bind_ok]
    rw [hj]
    simp only [except_bind_ok]
    rw [show jsonGet (.jobj members) LETTERS_KEY =
        (match lookupLast members LETTERS_KEY with
         | some x => Except.ok x
         | none => Except.error PyErr.keyError) from rfl, hlv]
    simp only [except_bind_ok]
    rw [hal]
    simp only [except_bind_ok]
    rw [show jsonGet (.jobj members) WORDS_KEY =
        (match lookupLast members WORDS_KEY with
         | some x => Except.ok x
         | none => Except.error PyErr.keyError) from rfl, hmiss]
    rfl

/-- Witness for the amended C6 at a concrete input: `"A"` is one base64
data character, a padding error, and `deserialize` reports the uniform
invalid-format error. -/
theorem C6_uniform_failure_amended_witness :
    deserialize ⟨[], []⟩ [65] = .error .invalidFormat :=
  (C6_uniform_failure_amended ⟨[], []⟩ [65] [65] rfl).1 rfl

/-- C10: `deserialize` merges into the receiver instead of replacing it:
the state it returns extends the receiver's pool and word list (the decoded
letters and words are appended after the existing entries), and feeding the
same token to the returned state appends the same entries once more, so a
double import duplicates every imported pool letter and word. -/
theorem C10_deserialize_merges (gs gs1 gs2 : GameStateS) (s : List Nat)
    (h1 : deserialize gs s = .ok gs1) (h2 : deserialize gs1 s = .ok gs2) :
    gs1.pool.take gs.pool.length = gs.pool ∧
    gs1.words.take gs.words.length = gs.words ∧
    gs2.pool = gs1.pool ++ gs1.pool.drop gs.pool.length ∧
    gs2.words = gs1.words ++ gs1.words.drop gs.words.length := by
  obtain ⟨bytes, dec, txt, data, lv, wv, items, witems,
    he, hb, hu, hj, hl, hil, hw, hiw, hok, hsh1⟩ :=
    deserializeRaw_ok_inv gs gs1 s (deserialize_ok_inv gs gs1 s h1)
  have hfwd := deserialize_ok_of gs1 s bytes dec txt data lv wv items witems
    he hb hu hj hl hil hw hiw hok
  rw [h2] at hfwd
  have hsh2 : gs2 = ⟨gs1.pool ++ items.map pyLowerStr, gs1.words ++ witems⟩ :=
    Except.ok.inj hfwd
  subst hsh2
  subst hsh1
  simp [List.take_left, List.drop_left]

/-- Witness for C10 at a concrete input: importing the token of pool
`["a"]`, word `["bc"]` into the empty state gives exactly that state;
importing it again duplicates the letter and the word. -/
theorem C10_deserialize_merges_witness :
    ([[97]] : List (List Nat)).take ([] : List (List Nat)).length = [] ∧
    ([[98, 99]] : List (List Nat)).take ([] : List (List Nat)).length = [] ∧
    ([[97], [97]] : List (List Nat)) =
      [[97]] ++ ([[97]] : List (List Nat)).drop ([] : List (List Nat)).length ∧
    ([[98, 99], [98, 99]] : List (List Nat)) =
      [[98, 99]] ++ ([[98, 99]] : List (List Nat)).drop
        ([] : List (List Nat)).length :=
  C10_deserialize_merges ⟨[], []⟩ ⟨[[97]], [[98, 99]]⟩
    ⟨[[97], [97]], [[98, 99], [98, 99]]⟩ (serialize ⟨[[97]], [[98, 99]]⟩)
    (by rfl) (by rfl)

end SerializationClaims

end Grabble
